import Mathlib

/-!
Verification development for `imgs_to_video.py`: a batch utility that converts a
directory of numbered image frames into fixed-length video clip pairs (clean and
annotated) plus per-chunk CSV files of point annotations.

The embedding is shallow: filenames are `List Char`, CSV cells are `String`,
directory listings are lists, and the effectful parts of the program are modelled
by explicit inputs — an image file is a name together with a flag saying whether
`cv2.imread` succeeds on it, the annotation CSV is an existence flag, a
readability flag, a header and a list of raw rows, and per-chunk CSV write
success is a predicate on the chunk loop index.  Machine integers are `Int`/`Nat`
(Python integers are unbounded, so no wrap-around is modelled).  Unicode-only
behaviours (non-ASCII digits in `\d`, Unicode lowercasing) are out of scope: the
model treats digits and case ASCII-wise, which is exact for ASCII file names.
-/

/-- Boolean test that `pat` is a prefix of `l` (used to model `str.startswith`
and literal matching inside the regex model). -/
def isPre : List Char → List Char → Bool
  | [], _ => true
  | _ :: _, [] => false
  | p :: ps, c :: cs => if p = c then isPre ps cs else false

/-- Strip `pat` from the front of `l`, returning the remainder when `pat` is a
prefix.  Models consuming a literal in the regex search. -/
def dropPre : List Char → List Char → Option (List Char)
  | [], l => some l
  | _ :: _, [] => none
  | p :: ps, c :: cs => if p = c then dropPre ps cs else none

/-- Boolean substring test, modelling the Python expression `pat in s`. -/
def containsSub (pat : List Char) : List Char → Bool
  | [] => isPre pat []
  | c :: rest => isPre pat (c :: rest) || containsSub pat rest

/-- Boolean suffix test, modelling `str.endswith`. -/
def endsWithL (sfx l : List Char) : Bool := isPre sfx.reverse l.reverse

/-- ASCII lowercasing of one character, modelling `str.lower` on ASCII names. -/
def toLowerAscii (c : Char) : Char :=
  if 'A' ≤ c ∧ c ≤ 'Z' then Char.ofNat (c.toNat + 32) else c

/-- Numeric value of a list of ASCII digits, most significant first.  This is
what Python `int` computes on a plain digit string. -/
def natOfDigits (ds : List Char) : Nat :=
  ds.foldl (fun a c => 10 * a + (c.toNat - 48)) 0

/-- The ASCII digit character for a single decimal digit. -/
def digitChar (d : Nat) : Char :=
  match d with
  | 0 => '0' | 1 => '1' | 2 => '2' | 3 => '3' | 4 => '4'
  | 5 => '5' | 6 => '6' | 7 => '7' | 8 => '8' | _ + 9 => '9'

/-- Fuel-driven decimal printer (fuel makes the recursion structural, so that
concrete instances reduce inside `decide`). -/
def toDecimalAux : Nat → Nat → List Char
  | 0, _ => []
  | fuel + 1, n =>
    if n < 10 then [digitChar n]
    else toDecimalAux fuel (n / 10) ++ [digitChar (n % 10)]

/-- Decimal representation of a natural number, as produced by Python string
formatting of a nonnegative `int`. -/
def toDecimal (n : Nat) : List Char := toDecimalAux (n + 1) n

/-- Python `int(s)` on a CSV cell: strip whitespace, allow one sign, and require
a nonempty digit string; everything else raises `ValueError` (here: `none`).
(Python additionally accepts underscore digit separators; the model omits them —
no claim depends on that corner.) -/
def pyInt? (s : String) : Option Int :=
  let t := ((s.data.dropWhile Char.isWhitespace).reverse.dropWhile
      Char.isWhitespace).reverse
  match t with
  | [] => none
  | '-' :: ds =>
    if ds.isEmpty then none
    else if ds.all Char.isDigit then some (-(natOfDigits ds : Int)) else none
  | '+' :: ds =>
    if ds.isEmpty then none
    else if ds.all Char.isDigit then some ((natOfDigits ds : Int)) else none
  | ds =>
    if ds.all Char.isDigit then some ((natOfDigits ds : Int)) else none

/-- Maximal runs of consecutive ASCII digits in a character list, in order of
occurrence.  This models `re.findall(r"\d+", img_name)` (line 138 of the
source). -/
def digitRuns : List Char → List (List Char)
  | [] => []
  | c :: rest =>
    if c.isDigit then
      match rest with
      | [] => [[c]]
      | d :: _ =>
        if d.isDigit then
          match digitRuns rest with
          | [] => [[c]]
          | r :: rs => (c :: r) :: rs
        else [c] :: digitRuns rest
    else digitRuns rest

/-- Runs of consecutive characters of the same class (digit vs non-digit), used
by the natural-sort key below. -/
def charRuns : List Char → List (List Char)
  | [] => []
  | c :: rest =>
    match rest with
    | [] => [[c]]
    | d :: _ =>
      if c.isDigit = d.isDigit then
        match charRuns rest with
        | [] => [[c]]
        | r :: rs => (c :: r) :: rs
      else [c] :: charRuns rest

/-- One component of a natural-sort key: a literal character run or the numeric
value of a digit run. -/
abbrev NatKeyPart := Sum (List Char) Nat

/-- Natural-sort key of a filename, modelling the default `natsort` key: split
into digit and non-digit runs, read digit runs as numbers, and pad with a
leading empty string component when the name starts with a digit run, so that
the components of any two keys at equal positions always have the same shape. -/
def natKey (s : List Char) : List NatKeyPart :=
  let comps := (charRuns s).map (fun r =>
    if (r.headD ' ').isDigit then Sum.inr (natOfDigits r) else Sum.inl r)
  match comps with
  | Sum.inr n :: rest => Sum.inl [] :: Sum.inr n :: rest
  | l => l

/-- Lexicographic (strict) comparison of character lists by code point,
modelling Python string comparison. -/
def strLt : List Char → List Char → Bool
  | [], [] => false
  | [], _ :: _ => true
  | _ :: _, [] => false
  | a :: as, b :: bs => if a = b then strLt as bs else decide (a.toNat < b.toNat)

/-- Strict comparison of single key components.  The two mixed cases are
unreachable on padded keys; they are given the order `natsort` realises via its
padding (a number sorts before a nonempty string). -/
def partLt : NatKeyPart → NatKeyPart → Bool
  | Sum.inl a, Sum.inl b => strLt a b
  | Sum.inr m, Sum.inr n => decide (m < n)
  | Sum.inr _, Sum.inl _ => true
  | Sum.inl _, Sum.inr _ => false

/-- Non-strict lexicographic comparison of whole keys, modelling Python tuple
comparison (a proper prefix sorts first). -/
def keyLE : List NatKeyPart → List NatKeyPart → Bool
  | [], _ => true
  | _ :: _, [] => false
  | x :: xs, y :: ys => if x = y then keyLE xs ys else partLt x y

/-- Stable insertion of `x` into a sorted list under `le` (a tie keeps `x`, the
earlier element, first). -/
def insertNat (le : α → α → Bool) (x : α) : List α → List α
  | [] => [x]
  | y :: ys => if le x y then x :: y :: ys else y :: insertNat le x ys

/-- Stable insertion sort under `le`. -/
def sortNat (le : α → α → Bool) : List α → List α
  | [] => []
  | x :: xs => insertNat le x (sortNat le xs)

/-- A labelled annotation point, as stored by `load_csv_data` (lines 32-36 of
the source): `name` is the value of the optional `Object Name` column.  `none`
models the Python value `None`, which a row shorter than the header produces via
`DictReader`; the string default is `some "Unknown"`. -/
structure Point where
  name : Option String
  x : Int
  y : Int
deriving DecidableEq

/-- An image file in the input directory: its filename and whether `cv2.imread`
succeeds on it (decode success is the only observable of `imread` the program
branches on, beyond the first-frame dimensions, which every later frame is
resized to). -/
structure Img where
  name : List Char
  ok : Bool
deriving DecidableEq

/-- A row of a per-chunk annotation CSV, with the chunk-local frame index and
the point data (lines 145-150 of the source). -/
structure CsvRow where
  frame : Nat
  objName : Option String
  x : Int
  y : Int
deriving DecidableEq

/-- First index of a column name in the CSV header (`DictReader` field lookup;
header names are assumed distinct, as they are in the data this tool reads). -/
def colIdxAux (col : String) : List String → Nat → Option Nat
  | [], _ => none
  | h :: t, i => if h = col then some i else colIdxAux col t (i + 1)

/-- Index of a column in the header, or `none` when the header lacks it. -/
def colIdx (header : List String) (col : String) : Option Nat :=
  colIdxAux col header 0

/-- Value of column `col` in a raw row under `csv.DictReader` semantics: outer
`none` models a `KeyError` (column absent from the header); `some none` models
the restval `None` that `DictReader` fills in when the row is shorter than the
header; `some (some s)` is an actual cell. -/
def dictGet (header row : List String) (col : String) : Option (Option String) :=
  (colIdx header col).map (fun i => row[i]?)

/-- Outcome of evaluating `int(row[col])` for one required column. -/
inductive CellRead where
  | cok (v : Int)
  | cskip
  | cerr
deriving DecidableEq

/-- Evaluate `int(row[col])`: a missing header column raises `KeyError` and a
non-numeric cell raises `ValueError` (both caught by the inner handler at line
37, hence `cskip`); a `None` cell from a short row makes `int` raise
`TypeError`, which the inner handler does not catch (`cerr`). -/
def readIntCell (header row : List String) (col : String) : CellRead :=
  match dictGet header row col with
  | none => CellRead.cskip
  | some none => CellRead.cerr
  | some (some s) =>
    match pyInt? s with
    | none => CellRead.cskip
    | some v => CellRead.cok v

/-- The label taken from `row.get("Object Name", "Unknown")` (line 30): the
default applies only when the column is absent from the header; a short row
stores the Python value `None` (here `none`). -/
def rowLabel (header row : List String) : Option String :=
  match dictGet header row "Object Name" with
  | none => some "Unknown"
  | some v => v

/-- Outcome of processing one CSV row in the loader loop (lines 24-38). -/
inductive RowOut where
  | rok (frame : Int) (p : Point)
  | rskip
  | rerr
deriving DecidableEq

/-- Process one row of the annotation CSV: read `Frame`, `X`, `Y` in program
order, then build the point with the optional label. -/
def rowStep (header row : List String) : RowOut :=
  match readIntCell header row "Frame" with
  | CellRead.cerr => RowOut.rerr
  | CellRead.cskip => RowOut.rskip
  | CellRead.cok f =>
    match readIntCell header row "X" with
    | CellRead.cerr => RowOut.rerr
    | CellRead.cskip => RowOut.rskip
    | CellRead.cok x =>
      match readIntCell header row "Y" with
      | CellRead.cerr => RowOut.rerr
      | CellRead.cskip => RowOut.rskip
      | CellRead.cok y => RowOut.rok f ⟨rowLabel header row, x, y⟩

/-- Append a point at frame `f`, preserving insertion order (the
`defaultdict(list)` append at line 32). -/
def pmInsert (pm : Int → List Point) (f : Int) (p : Point) : Int → List Point :=
  fun g => if g = f then pm f ++ [p] else pm g

/-- The empty points map. -/
def emptyPm : Int → List Point := fun _ => []

/-- The reader loop of `load_csv_data`: blank rows are skipped by `DictReader`;
a `rskip` row is skipped by the inner handler and the loop continues; a `rerr`
row raises out of the loop into the outer handler at line 39, which logs and
returns the map built so far. -/
def processRows (header : List String) (pm : Int → List Point) :
    List (List String) → (Int → List Point)
  | [] => pm
  | row :: rest =>
    if row.isEmpty then processRows header pm rest
    else
      match rowStep header row with
      | RowOut.rskip => processRows header pm rest
      | RowOut.rerr => pm
      | RowOut.rok f p => processRows header (pmInsert pm f p) rest

/-- Model of `load_csv_data` (lines 9-42): a missing file yields the empty map
with a warning; an unreadable file makes `open` raise into the outer handler,
yielding the empty map; otherwise the rows are processed in order. -/
def load_csv_data (csvExists csvReadable : Bool) (header : List String)
    (rawRows : List (List String)) : Int → List Point :=
  if csvExists = false then emptyPm
  else if csvReadable = false then emptyPm
  else processRows header emptyPm rawRows

/-- The literal `"_clean.mp4"` used both by the prefilter (`"_clean.mp4" in f`,
line 56) and as the tail of the search pattern (line 62). -/
def cleanTag : List Char := ("_clean.mp4" : String).data

/-- Match the part of the pattern after the literal prefix: an underscore, a
maximal nonempty digit run, then the literal `_clean.mp4`, returning the value
of the run.  Backtracking cannot shorten the greedy `\d+` here, because the
character after the digits must be an underscore. -/
def matchTail : List Char → Option Nat
  | [] => none
  | c :: r2 =>
    if c = '_' then
      if (r2.takeWhile Char.isDigit).isEmpty then none
      else if isPre cleanTag (r2.dropWhile Char.isDigit) then
        some (natOfDigits (r2.takeWhile Char.isDigit))
      else none
    else none

/-- One attempt of the regex `re.escape(prefix) + "_(\d+)_clean\.mp4"` at the
current position: consume the literal prefix, then the rest of the pattern. -/
def matchHere (pfx l : List Char) : Option Nat :=
  match dropPre pfx l with
  | none => none
  | some r1 => matchTail r1

/-- `re.search` of the pattern: try each start position from the left and
return the value extracted at the first matching one. -/
def searchIdx (pfx : List Char) : List Char → Option Nat
  | [] => none
  | c :: rest =>
    match matchHere pfx (c :: rest) with
    | some v => some v
    | none => searchIdx pfx rest

/-- Model of `get_next_video_index` (lines 44-66).  The output location is
modelled relative to the output directory, so the `os.path.dirname`/`basename`
split is the identity: `outputPfx` is the basename prefix and `folderFiles` the
listing of the (already existing or freshly created) output directory. -/
def get_next_video_index (outputPfx : List Char)
    (folderFiles : List (List Char)) : Nat :=
  let existing := folderFiles.filter
    (fun f => isPre outputPfx f && containsSub cleanTag f)
  let indices := existing.filterMap (fun f => searchIdx outputPfx f)
  indices.foldl max 0 + 1

/-- Output path `f"{output_prefix}_{idx}_clean.mp4"` (line 110). -/
def mkCleanName (outputPfx : List Char) (idx : Nat) : List Char :=
  outputPfx ++ '_' :: (toDecimal idx ++ cleanTag)

/-- Output path `f"{output_prefix}_{idx}_annotated.mp4"` (line 111). -/
def mkAnnotatedName (outputPfx : List Char) (idx : Nat) : List Char :=
  outputPfx ++ '_' :: (toDecimal idx ++ ("_annotated.mp4" : String).data)

/-- Output path `f"{output_prefix}_{idx}.csv"` (line 112). -/
def mkCsvName (outputPfx : List Char) (idx : Nat) : List Char :=
  outputPfx ++ '_' :: (toDecimal idx ++ (".csv" : String).data)

/-- Case-insensitive extension filter of line 73:
`img.lower().endswith((".jpg", ".jpeg", ".png"))`. -/
def hasImageExt (name : List Char) : Bool :=
  let low := name.map toLowerAscii
  endsWithL (".jpg" : String).data low || endsWithL (".jpeg" : String).data low
    || endsWithL (".png" : String).data low

/-- Sort images by natural order of their filenames (`natsorted`, line 74). -/
def natsortImgs (l : List Img) : List Img :=
  sortNat (fun a b => keyLE (natKey a.name) (natKey b.name)) l

/-- Python `enumerate` starting at `n`. -/
def enumFromN (n : Nat) : List α → List (Nat × α)
  | [] => []
  | a :: as => (n, a) :: enumFromN (n + 1) as

/-- Python `enumerate(video_images)` (line 123). -/
def pyEnum (l : List α) : List (Nat × α) := enumFromN 0 l

/-- Observable output of encoding one chunk: the local indices of the frames
written to the clean stream, the frames written to the annotated stream paired
with the circles drawn on each, and the rows collected for the chunk CSV. -/
structure ChunkOut where
  cleanFrames : List Nat
  annotatedFrames : List (Nat × List Point)
  rows : List CsvRow
deriving DecidableEq

/-- The points looked up for one image: the numeric value of the last digit run
of its filename keys into the points map; a name without digits contributes
nothing (lines 138-141). -/
def pointsOf (pm : Int → List Point) (name : List Char) : List Point :=
  match (digitRuns name).getLast? with
  | some ds => pm (Int.ofNat (natOfDigits ds))
  | none => []

/-- Body of the per-image loop (lines 123-156): a failed decode skips the image
entirely (`continue`); otherwise the frame is written clean, the points of its
global frame number are appended to the chunk rows with the chunk-local index,
the circles are drawn, and the frame is written annotated. -/
def stepImage (pm : Int → List Point) (acc : ChunkOut) (pr : Nat × Img) :
    ChunkOut :=
  if pr.2.ok then
    { cleanFrames := acc.cleanFrames ++ [pr.1]
      annotatedFrames :=
        acc.annotatedFrames ++ [(pr.1, pointsOf pm pr.2.name)]
      rows := acc.rows ++ (pointsOf pm pr.2.name).map
        (fun p => { frame := pr.1, objName := p.name, x := p.x, y := p.y }) }
  else acc

/-- Encode one chunk of images. -/
def processChunk (pm : Int → List Point) (chunk : List Img) : ChunkOut :=
  (pyEnum chunk).foldl (stepImage pm) ⟨[], [], []⟩

/-- The `DictWriter` field names of the chunk CSV (line 165). -/
def csvFields : List String := ["Frame", "Object Name", "X", "Y"]

/-- Observable output for one chunk of `split_images_to_videos`: the sequence
index, the slice of images the chunk was built from, the three output paths,
the encoded streams and rows, and the chunk CSV actually written (`none` when
no rows were collected, and also when the write raised and was caught at line
169). -/
structure VideoOut where
  vidIdx : Nat
  chunk : List Img
  cleanPath : List Char
  annotatedPath : List Char
  csvPath : List Char
  output : ChunkOut
  csvFile : Option (List String × List CsvRow)
deriving DecidableEq

/-- The body of the per-chunk loop (lines 102-174 of the source): slice the
chunk, assign its sequence index, encode it, and write its CSV when rows were
collected and the write does not raise. -/
def mkVideoOut (pm : Int → List Point) (outputPfx : List Char)
    (images : List Img) (frames_per_video starting_index : Nat)
    (csvWriteOk : Nat → Bool) (i : Nat) : VideoOut :=
  let video_images := (images.drop (i * frames_per_video)).take frames_per_video
  let current_vid_idx := starting_index + i
  let co := processChunk pm video_images
  { vidIdx := current_vid_idx
    chunk := video_images
    cleanPath := mkCleanName outputPfx current_vid_idx
    annotatedPath := mkAnnotatedName outputPfx current_vid_idx
    csvPath := mkCsvName outputPfx current_vid_idx
    output := co
    csvFile :=
      if co.rows.isEmpty then none
      else if csvWriteOk i then some (csvFields, co.rows) else none }

/-- Model of `split_images_to_videos` (lines 68-174).  Inputs: the raw listing
of the input directory with per-file decode success, the listing of the output
directory, the output prefix (relative to the output directory, see
`get_next_video_index`), the annotation CSV modelled as in `load_csv_data`, the
numeric parameters, and a per-chunk write-success flag for the chunk CSV files.
Errors: the `ValueError` of line 78 for an empty image list, the
`RuntimeError` of line 84 when the first image fails to decode, and the
`ZeroDivisionError` Python raises at line 91 when `frames_per_video` is zero.
`fps` and `frame_size` only parameterise the encoder and resize and so do not
appear in the observables. -/
def split_images_to_videos (inputFiles : List Img)
    (folderFiles : List (List Char)) (outputPfx : List Char)
    (csvExists csvReadable : Bool) (header : List String)
    (rawRows : List (List String)) (fps : Nat) (frames_per_video : Nat)
    (frame_size : Option (Nat × Nat)) (csvWriteOk : Nat → Bool) :
    Except String (List VideoOut) :=
  let points_map := load_csv_data csvExists csvReadable header rawRows
  let images := natsortImgs (inputFiles.filter (fun f => hasImageExt f.name))
  match images with
  | [] => Except.error "No images found in the folder."
  | first :: rest =>
    if first.ok = false then Except.error "Could not read the first frame"
    else if frames_per_video = 0 then Except.error "ZeroDivisionError"
    else
      let total_videos :=
        ((first :: rest).length + frames_per_video - 1) / frames_per_video
      let starting_index := get_next_video_index outputPfx folderFiles
      Except.ok ((List.range total_videos).map
        (mkVideoOut points_map outputPfx (first :: rest) frames_per_video
          starting_index csvWriteOk))

/-- The chunk list of a successful run (used by concrete witnesses). -/
def outsOf (r : Except String (List VideoOut)) : List VideoOut :=
  match r with
  | Except.ok l => l
  | Except.error _ => []

/-! ### Basic facts about the string utilities -/

theorem isPre_iff_append (p l : List Char) :
    isPre p l = true ↔ ∃ t, l = p ++ t := by
  induction p generalizing l with
  | nil => simp [isPre]
  | cons x xs ih =>
    cases l with
    | nil => simp [isPre]
    | cons c cs =>
      by_cases hx : x = c
      · subst hx
        simp [isPre, ih]
      · simp only [isPre, if_neg hx, List.cons_append]
        constructor
        · intro h; cases h
        · rintro ⟨t, ht⟩
          injection ht with h1 _
          exact absurd h1.symm hx

theorem dropPre_eq_some_iff (p l r : List Char) :
    dropPre p l = some r ↔ l = p ++ r := by
  induction p generalizing l with
  | nil => simp [dropPre]
  | cons x xs ih =>
    cases l with
    | nil => simp [dropPre]
    | cons c cs =>
      by_cases hx : x = c
      · subst hx
        simp [dropPre, ih]
      · simp only [dropPre, if_neg hx, List.cons_append]
        constructor
        · intro h; cases h
        · intro ht
          injection ht with h1 _
          exact absurd h1.symm hx

theorem isPre_append (p t : List Char) : isPre p (p ++ t) = true :=
  (isPre_iff_append p (p ++ t)).2 ⟨t, rfl⟩

theorem isPre_refl (p : List Char) : isPre p p = true := by
  have := isPre_append p []
  simpa using this

theorem dropPre_append (p t : List Char) : dropPre p (p ++ t) = some t :=
  (dropPre_eq_some_iff p (p ++ t) t).2 rfl

theorem containsSub_of_append (pat a : List Char) :
    containsSub pat (a ++ pat) = true := by
  induction a with
  | nil =>
    cases pat with
    | nil => rfl
    | cons c cs =>
      show (isPre (c :: cs) (c :: cs) || containsSub (c :: cs) cs) = true
      rw [isPre_refl]
      rfl
  | cons x xs ih =>
    show (isPre pat (x :: (xs ++ pat)) || containsSub pat (xs ++ pat)) = true
    rw [ih]
    simp

theorem le_foldl_max (l : List Nat) (n : Nat) : n ≤ l.foldl max n := by
  induction l generalizing n with
  | nil => simp
  | cons x xs ih => exact le_trans (le_max_left n x) (ih (max n x))

theorem mem_le_foldl_max : ∀ (l : List Nat) (n a : Nat), a ∈ l → a ≤ l.foldl max n := by
  intro l
  induction l with
  | nil => intro n a h; cases h
  | cons x xs ih =>
    intro n a h
    rcases List.mem_cons.1 h with rfl | hm
    · exact le_trans (le_max_right n a) (le_foldl_max xs (max n a))
    · exact ih (max n x) a hm

theorem length_insertNat (le : α → α → Bool) (x : α) (l : List α) :
    (insertNat le x l).length = l.length + 1 := by
  induction l with
  | nil => rfl
  | cons y ys ih =>
    by_cases h : le x y
    · simp [insertNat, h]
    · simp [insertNat, h, ih]

theorem length_sortNat (le : α → α → Bool) (l : List α) :
    (sortNat le l).length = l.length := by
  induction l with
  | nil => rfl
  | cons x xs ih => simp [sortNat, length_insertNat, ih]

/-! ### Facts about the decimal printer -/

theorem toDecimalAux_fuel (f1 f2 n : Nat) (h1 : n < f1) (h2 : n < f2) :
    toDecimalAux f1 n = toDecimalAux f2 n := by
  induction f1 generalizing f2 n with
  | zero => omega
  | succ f ih =>
    cases f2 with
    | zero => omega
    | succ g =>
      by_cases hn : n < 10
      · simp [toDecimalAux, hn]
      · have hdiv : n / 10 < n := Nat.div_lt_self (by omega) (by omega)
        simp only [toDecimalAux, if_neg hn]
        rw [ih g (n / 10) (by omega) (by omega)]

theorem toDecimal_lt_ten (n : Nat) (h : n < 10) : toDecimal n = [digitChar n] := by
  simp [toDecimal, toDecimalAux, h]

theorem toDecimal_shift (n : Nat) (h : 10 ≤ n) :
    toDecimal n = toDecimal (n / 10) ++ [digitChar (n % 10)] := by
  have hdiv : n / 10 < n := Nat.div_lt_self (by omega) (by omega)
  have step : toDecimal n = toDecimalAux n (n / 10) ++ [digitChar (n % 10)] := by
    show toDecimalAux (n + 1) n = _
    simp only [toDecimalAux]
    rw [if_neg (by omega : ¬n < 10)]
  rw [step, toDecimalAux_fuel n (n / 10 + 1) (n / 10) (by omega) (by omega)]
  rfl

theorem digitChar_isDigit (d : Nat) : (digitChar d).isDigit = true := by
  rcases d with _|_|_|_|_|_|_|_|_|d <;> rfl

theorem digitChar_val (d : Nat) (h : d < 10) : (digitChar d).toNat - 48 = d := by
  interval_cases d <;> decide

theorem toDecimal_ne_nil (n : Nat) : toDecimal n ≠ [] := by
  by_cases h : n < 10
  · rw [toDecimal_lt_ten n h]; simp
  · rw [toDecimal_shift n (by omega)]; simp

theorem toDecimal_all_digits (n : Nat) :
    ∀ c ∈ toDecimal n, c.isDigit = true := by
  induction n using Nat.strong_induction_on with
  | _ n ih =>
    by_cases h : n < 10
    · rw [toDecimal_lt_ten n h]
      intro c hc
      rcases List.mem_singleton.1 hc with rfl
      exact digitChar_isDigit n
    · rw [toDecimal_shift n (by omega)]
      intro c hc
      rcases List.mem_append.1 hc with hc1 | hc2
      · exact ih (n / 10) (Nat.div_lt_self (by omega) (by omega)) c hc1
      · rcases List.mem_singleton.1 hc2 with rfl
        exact digitChar_isDigit (n % 10)

theorem natOfDigits_append_one (a : List Char) (c : Char) :
    natOfDigits (a ++ [c]) = 10 * natOfDigits a + (c.toNat - 48) := by
  simp [natOfDigits, List.foldl_append]

theorem natOfDigits_toDecimal (n : Nat) : natOfDigits (toDecimal n) = n := by
  induction n using Nat.strong_induction_on with
  | _ n ih =>
    by_cases h : n < 10
    · rw [toDecimal_lt_ten n h]
      have : natOfDigits [digitChar n] = (digitChar n).toNat - 48 := by
        simp [natOfDigits]
      rw [this, digitChar_val n h]
    · rw [toDecimal_shift n (by omega), natOfDigits_append_one,
        ih (n / 10) (Nat.div_lt_self (by omega) (by omega)),
        digitChar_val (n % 10) (by omega)]
      omega

theorem toDecimal_injective (m n : Nat) (h : toDecimal m = toDecimal n) :
    m = n := by
  have := congrArg natOfDigits h
  rwa [natOfDigits_toDecimal, natOfDigits_toDecimal] at this

/-! ### Declarative characterisation of the index-extraction regex -/

/-- Declarative statement that the pattern `<pfx>_<digits>_clean.mp4` matches
at the head of `l`, extracting value `v`: `l` decomposes as the prefix, an
underscore, a nonempty all-digit run and the literal tail, and `v` is the value
of the run.  (The run is automatically maximal, since the tail starts with an
underscore.) -/
def MatchesHere (pfx l : List Char) (v : Nat) : Prop :=
  ∃ ds post, l = pfx ++ '_' :: (ds ++ (cleanTag ++ post)) ∧ ds ≠ [] ∧
    (∀ c ∈ ds, c.isDigit = true) ∧ v = natOfDigits ds

/-- Declarative statement that the pattern matches at start position `p` of
`l`, extracting value `v`. -/
def MatchesAt (pfx l : List Char) (p v : Nat) : Prop :=
  MatchesHere pfx (l.drop p) v

theorem cleanTag_cons : cleanTag = '_' :: ("clean.mp4" : String).data := rfl

theorem takeWhile_digit_cleanTag (post : List Char) :
    (cleanTag ++ post).takeWhile Char.isDigit = [] := by
  rw [cleanTag_cons]
  simp [List.takeWhile_cons]

theorem dropWhile_digit_cleanTag (post : List Char) :
    (cleanTag ++ post).dropWhile Char.isDigit = cleanTag ++ post := by
  rw [cleanTag_cons]
  simp [List.dropWhile_cons]

theorem matchHere_some_iff (pfx l : List Char) (v : Nat) :
    matchHere pfx l = some v ↔ MatchesHere pfx l v := by
  constructor
  · intro h
    unfold matchHere at h
    cases hd : dropPre pfx l with
    | none =>
      simp only [hd] at h
      exact Option.noConfusion h
    | some r1 =>
      simp only [hd] at h
      cases r1 with
      | nil => simp [matchTail] at h
      | cons c r2 =>
        by_cases hc : c = '_'
        · subst hc
          simp only [matchTail, if_pos rfl] at h
          by_cases he : (r2.takeWhile Char.isDigit).isEmpty
          · rw [if_pos he] at h; cases h
          · rw [if_neg he] at h
            by_cases hp : isPre cleanTag (r2.dropWhile Char.isDigit) = true
            · rw [if_pos hp] at h
              injection h with hv
              obtain ⟨post, hpost⟩ := (isPre_iff_append _ _).1 hp
              refine ⟨r2.takeWhile Char.isDigit, post, ?_, ?_, ?_, hv.symm⟩
              · rw [(dropPre_eq_some_iff pfx l _).1 hd]
                rw [← hpost, List.takeWhile_append_dropWhile]
              · intro hnil; rw [hnil] at he; exact he rfl
              · intro a ha; exact List.mem_takeWhile_imp ha
            · rw [if_neg hp] at h; cases h
        · simp only [matchTail, if_neg hc] at h
          exact Option.noConfusion h
  · rintro ⟨ds, post, rfl, hne, hdig, rfl⟩
    unfold matchHere
    rw [dropPre_append]
    simp only [matchTail, if_pos rfl]
    rw [List.takeWhile_append_of_pos hdig, takeWhile_digit_cleanTag,
      List.dropWhile_append_of_pos hdig, dropWhile_digit_cleanTag,
      List.append_nil]
    rw [if_neg (show ¬(ds.isEmpty = true) by simp [hne])]
    simp [isPre_append cleanTag post]

theorem MatchesHere_nil (pfx : List Char) (v : Nat) :
    ¬MatchesHere pfx [] v := by
  rintro ⟨ds, post, h, -, -, -⟩
  have := List.append_eq_nil.1 h.symm
  cases this.2

theorem searchIdx_some_iff (pfx l : List Char) (v : Nat) :
    searchIdx pfx l = some v ↔
      ∃ p, MatchesAt pfx l p v ∧ ∀ q w, MatchesAt pfx l q w → p ≤ q := by
  induction l with
  | nil =>
    simp only [searchIdx]
    constructor
    · intro h; cases h
    · rintro ⟨p, hp, -⟩
      simp only [MatchesAt, List.drop_nil] at hp
      exact absurd hp (MatchesHere_nil pfx v)
  | cons c rest ih =>
    cases hm : matchHere pfx (c :: rest) with
    | some w =>
      simp only [searchIdx, hm]
      constructor
      · intro h
        refine ⟨0, ?_, fun q w2 _ => Nat.zero_le q⟩
        show MatchesHere pfx ((c :: rest).drop 0) v
        have hv : matchHere pfx (c :: rest) = some v := by rw [hm]; exact h
        simpa using (matchHere_some_iff _ _ _).1 hv
      · rintro ⟨p, hp, hmin⟩
        have hat0 : MatchesAt pfx (c :: rest) 0 w := by
          show MatchesHere pfx ((c :: rest).drop 0) w
          simpa using (matchHere_some_iff _ _ _).1 hm
        have hp0 : p = 0 := Nat.le_antisymm (hmin 0 w hat0) (Nat.zero_le p)
        subst hp0
        have : MatchesHere pfx (c :: rest) v := by simpa [MatchesAt] using hp
        have := (matchHere_some_iff _ _ _).2 this
        rw [hm] at this
        injection this with h2
        rw [h2]
    | none =>
      simp only [searchIdx, hm]
      rw [ih]
      constructor
      · rintro ⟨p, hp, hmin⟩
        refine ⟨p + 1, ?_, ?_⟩
        · show MatchesHere pfx ((c :: rest).drop (p + 1)) v
          simpa [List.drop_succ_cons] using hp
        · intro q w hq
          cases q with
          | zero =>
            exfalso
            have : MatchesHere pfx (c :: rest) w := by simpa [MatchesAt] using hq
            have := (matchHere_some_iff _ _ _).2 this
            rw [hm] at this
            cases this
          | succ q2 =>
            have : MatchesAt pfx rest q2 w := by
              show MatchesHere pfx (rest.drop q2) w
              simpa [MatchesAt, List.drop_succ_cons] using hq
            have := hmin q2 w this
            omega
      · rintro ⟨p, hp, hmin⟩
        cases p with
        | zero =>
          exfalso
          have : MatchesHere pfx (c :: rest) v := by simpa [MatchesAt] using hp
          have := (matchHere_some_iff _ _ _).2 this
          rw [hm] at this
          cases this
        | succ p2 =>
          refine ⟨p2, ?_, ?_⟩
          · show MatchesHere pfx (rest.drop p2) v
            simpa [MatchesAt, List.drop_succ_cons] using hp
          · intro q w hq
            have : MatchesAt pfx (c :: rest) (q + 1) w := by
              show MatchesHere pfx ((c :: rest).drop (q + 1)) w
              simpa [List.drop_succ_cons] using hq
            have := hmin (q + 1) w this
            omega

theorem matchHere_mkCleanName (pfx : List Char) (N : Nat) :
    matchHere pfx (mkCleanName pfx N) = some N := by
  apply (matchHere_some_iff _ _ _).2
  refine ⟨toDecimal N, [], ?_, toDecimal_ne_nil N, toDecimal_all_digits N,
    (natOfDigits_toDecimal N).symm⟩
  simp [mkCleanName]

theorem mkCleanName_ne_nil (pfx : List Char) (N : Nat) :
    mkCleanName pfx N ≠ [] := by
  simp [mkCleanName]

theorem searchIdx_mkCleanName (pfx : List Char) (N : Nat) :
    searchIdx pfx (mkCleanName pfx N) = some N := by
  cases h : mkCleanName pfx N with
  | nil => exact absurd h (mkCleanName_ne_nil pfx N)
  | cons c rest =>
    have hm := matchHere_mkCleanName pfx N
    rw [h] at hm
    simp only [searchIdx, hm]

theorem mkCleanName_inj (pfx : List Char) (m n : Nat)
    (h : mkCleanName pfx m = mkCleanName pfx n) : m = n := by
  have h1 := searchIdx_mkCleanName pfx m
  have h2 := searchIdx_mkCleanName pfx n
  rw [h] at h1
  rw [h1] at h2
  injection h2

/-! ### Chunking arithmetic -/

theorem ceil_div_eq (M C : Nat) (hC : 0 < C) :
    (M + C - 1) / C = M / C + (if M % C = 0 then 0 else 1) := by
  have hmod := Nat.div_add_mod M C
  have hr : M % C < C := Nat.mod_lt M hC
  by_cases h0 : M % C = 0
  · rw [if_pos h0, Nat.add_zero]
    have e1 : (M / C) * C = C * (M / C) := Nat.mul_comm _ _
    have e2 : (M / C + 1) * C = C * (M / C) + C := by ring
    apply Nat.div_eq_of_lt_le <;> omega
  · rw [if_neg h0]
    have e1 : (M / C + 1) * C = C * (M / C) + C := by ring
    have e2 : (M / C + 1 + 1) * C = C * (M / C) + C + C := by ring
    apply Nat.div_eq_of_lt_le <;> omega

theorem slice_length (l : List α) (C i : Nat) :
    ((l.drop (i * C)).take C).length = min C (l.length - i * C) := by
  rw [List.length_take, List.length_drop]

theorem slices_flatten (C n : Nat) (l : List α) :
    ((List.range n).map (fun i => (l.drop (i * C)).take C)).flatten
      = l.take (n * C) := by
  induction n with
  | zero => simp
  | succ m ih =>
    rw [List.range_succ, List.map_append, List.flatten_append, ih]
    simp only [List.map_cons, List.map_nil, List.flatten_cons, List.flatten_nil,
      List.append_nil]
    rw [← List.take_add]
    congr 1
    ring

/-! ### Characterisation of the per-chunk encoding loop -/

/-- The clean-stream contribution of one enumerated image: its local index when
it decodes, nothing when it is skipped. -/
def okIdx (pr : Nat × Img) : Option Nat :=
  if pr.2.ok then some pr.1 else none

/-- The annotated-stream contribution of one enumerated image: its local index
together with the points drawn on it. -/
def annFrame (pm : Int → List Point) (pr : Nat × Img) :
    Option (Nat × List Point) :=
  if pr.2.ok then some (pr.1, pointsOf pm pr.2.name) else none

/-- The chunk-CSV rows contributed by one enumerated image. -/
def imageRows (pm : Int → List Point) (pr : Nat × Img) : List CsvRow :=
  if pr.2.ok then
    (pointsOf pm pr.2.name).map
      (fun p => { frame := pr.1, objName := p.name, x := p.x, y := p.y })
  else []

theorem foldl_stepImage (pm : Int → List Point) (ps : List (Nat × Img))
    (acc : ChunkOut) :
    ps.foldl (stepImage pm) acc =
      { cleanFrames := acc.cleanFrames ++ ps.filterMap okIdx
        annotatedFrames := acc.annotatedFrames ++ ps.filterMap (annFrame pm)
        rows := acc.rows ++ (ps.map (imageRows pm)).flatten } := by
  induction ps generalizing acc with
  | nil => simp
  | cons pr rest ih =>
    rw [List.foldl_cons, ih]
    by_cases h : pr.2.ok
    · simp [stepImage, okIdx, annFrame, imageRows, h, List.filterMap_cons]
    · simp [stepImage, okIdx, annFrame, imageRows, h, List.filterMap_cons]

theorem processChunk_eq (pm : Int → List Point) (chunk : List Img) :
    processChunk pm chunk =
      { cleanFrames := (pyEnum chunk).filterMap okIdx
        annotatedFrames := (pyEnum chunk).filterMap (annFrame pm)
        rows := ((pyEnum chunk).map (imageRows pm)).flatten } := by
  unfold processChunk
  rw [foldl_stepImage]
  simp

theorem mem_enumFromN (l : List α) :
    ∀ (n : Nat) (pr : Nat × α),
      pr ∈ enumFromN n l ↔ ∃ k, pr.1 = n + k ∧ l[k]? = some pr.2 := by
  induction l with
  | nil =>
    intro n pr
    simp [enumFromN]
  | cons a as ih =>
    intro n pr
    obtain ⟨i, x⟩ := pr
    simp only [enumFromN, List.mem_cons, ih (n + 1)]
    constructor
    · rintro (h | ⟨k, hk, hg⟩)
      · injection h with h1 h2
        exact ⟨0, by omega, by rw [List.getElem?_cons_zero, h2]⟩
      · exact ⟨k + 1, by omega, by rw [List.getElem?_cons_succ]; exact hg⟩
    · rintro ⟨k, hk, hg⟩
      cases k with
      | zero =>
        left
        rw [List.getElem?_cons_zero] at hg
        injection hg with hg
        simp only [Nat.add_zero] at hk
        rw [Prod.mk.injEq]
        exact ⟨hk, hg.symm⟩
      | succ k2 =>
        right
        rw [List.getElem?_cons_succ] at hg
        exact ⟨k2, by omega, hg⟩

theorem mem_pyEnum (l : List α) (pr : Nat × α) :
    pr ∈ pyEnum l ↔ l[pr.1]? = some pr.2 := by
  rw [pyEnum, mem_enumFromN]
  constructor
  · rintro ⟨k, hk, hg⟩
    rw [hk]
    simpa using hg
  · intro h
    exact ⟨pr.1, by omega, h⟩

theorem rows_mem_iff (pm : Int → List Point) (chunk : List Img) (row : CsvRow) :
    row ∈ (processChunk pm chunk).rows ↔
      ∃ i img, chunk[i]? = some img ∧ row ∈ imageRows pm (i, img) := by
  rw [processChunk_eq]
  simp only [List.mem_flatten, List.mem_map]
  constructor
  · rintro ⟨block, ⟨pr, hpr, rfl⟩, hrow⟩
    obtain ⟨i, img⟩ := pr
    exact ⟨i, img, (mem_pyEnum chunk (i, img)).1 hpr, hrow⟩
  · rintro ⟨i, img, hg, hrow⟩
    exact ⟨imageRows pm (i, img), ⟨(i, img), (mem_pyEnum chunk (i, img)).2 hg, rfl⟩,
      hrow⟩

theorem imageRows_frame (pm : Int → List Point) (i : Nat) (img : Img)
    (row : CsvRow) (h : row ∈ imageRows pm (i, img)) :
    row.frame = i ∧ img.ok = true ∧
      ∃ p ∈ pointsOf pm img.name,
        row = { frame := i, objName := p.name, x := p.x, y := p.y } := by
  by_cases hok : img.ok
  · rw [imageRows, if_pos hok] at h
    obtain ⟨p, hp, rfl⟩ := List.mem_map.1 h
    exact ⟨rfl, hok, p, hp, rfl⟩
  · rw [imageRows, if_neg hok] at h
    cases h

/-! ### The last digit run of a filename -/

theorem dr_nondigit (c : Char) (rest : List Char) (hc : c.isDigit = false) :
    digitRuns (c :: rest) = digitRuns rest := by
  cases rest with
  | nil => rw [digitRuns.eq_2, hc]; simp
  | cons d ds => rw [digitRuns.eq_3, hc]; simp

theorem dr_single (c : Char) (hc : c.isDigit = true) :
    digitRuns [c] = [[c]] := by
  rw [digitRuns.eq_2, hc]
  simp

theorem dr_two_digit (c d : Char) (rest : List Char) (hc : c.isDigit = true)
    (hd : d.isDigit = true) (r : List Char) (rs : List (List Char))
    (hr : digitRuns (d :: rest) = r :: rs) :
    digitRuns (c :: d :: rest) = (c :: r) :: rs := by
  rw [digitRuns.eq_3, hc, hd, hr]
  simp

theorem dr_digit_nondigit (c d : Char) (rest : List Char) (hc : c.isDigit = true)
    (hd : d.isDigit = false) :
    digitRuns (c :: d :: rest) = [c] :: digitRuns (d :: rest) := by
  rw [digitRuns.eq_3, hc, hd]
  simp

theorem digitRuns_nil_of_none (l : List Char) (h : ∀ c ∈ l, c.isDigit = false) :
    digitRuns l = [] := by
  induction l with
  | nil => rfl
  | cons c rest ih =>
    rw [dr_nondigit c rest (h c (List.mem_cons_self c rest))]
    exact ih (fun d hd => h d (List.mem_cons_of_mem c hd))

theorem digitRuns_head_digit (ys : List Char) :
    ∀ (y : Char), y.isDigit = true → ∃ r rs, digitRuns (y :: ys) = r :: rs := by
  induction ys with
  | nil => intro y h; exact ⟨[y], [], dr_single y h⟩
  | cons d ds ih =>
    intro y h
    by_cases hd : d.isDigit
    · obtain ⟨r, rs, hr⟩ := ih d hd
      exact ⟨y :: r, rs, dr_two_digit y d ds h hd r rs hr⟩
    · exact ⟨[y], digitRuns (d :: ds),
        dr_digit_nondigit y d ds h (by simpa using hd)⟩

theorem digitRuns_append (a b : List Char)
    (ha : ∀ c, a.getLast? = some c → c.isDigit = false) :
    digitRuns (a ++ b) = digitRuns a ++ digitRuns b := by
  induction a with
  | nil => simp [digitRuns.eq_1]
  | cons x xs ih =>
    cases xs with
    | nil =>
      have hx : x.isDigit = false := ha x (by simp)
      rw [List.cons_append, List.nil_append, dr_nondigit x b hx,
        dr_nondigit x [] hx, digitRuns.eq_1, List.nil_append]
    | cons y ys =>
      have ha2 : ∀ c, (y :: ys).getLast? = some c → c.isDigit = false := by
        intro c hc
        exact ha c (by rwa [List.getLast?_cons_cons])
      have ih2 := ih ha2
      rw [List.cons_append, List.cons_append]
      by_cases hx : x.isDigit
      · by_cases hy : y.isDigit
        · obtain ⟨r2, rs2, hr2⟩ := digitRuns_head_digit ys y hy
          have hsplit : digitRuns (y :: (ys ++ b)) = r2 :: (rs2 ++ digitRuns b) := by
            have h3 := ih2
            rw [hr2] at h3
            rw [← List.cons_append]
            simpa using h3
          rw [dr_two_digit x y (ys ++ b) hx hy r2 (rs2 ++ digitRuns b) hsplit,
            dr_two_digit x y ys hx hy r2 rs2 hr2]
          simp
        · have hy2 : y.isDigit = false := by simpa using hy
          rw [dr_digit_nondigit x y (ys ++ b) hx hy2,
            dr_digit_nondigit x y ys hx hy2, ← List.cons_append, ih2]
          simp
      · have hx2 : x.isDigit = false := by simpa using hx
        rw [dr_nondigit x (y :: (ys ++ b)) hx2, dr_nondigit x (y :: ys) hx2,
          ← List.cons_append]
        exact ih2

theorem digitRuns_run_append (run post : List Char) (hne : run ≠ [])
    (hdig : ∀ c ∈ run, c.isDigit = true)
    (hpost : ∀ c ∈ post, c.isDigit = false) :
    digitRuns (run ++ post) = [run] := by
  induction run with
  | nil => exact absurd rfl hne
  | cons x xs ih =>
    have hx : x.isDigit = true := hdig x (List.mem_cons_self x xs)
    cases xs with
    | nil =>
      cases post with
      | nil =>
        rw [List.cons_append, List.nil_append]
        exact dr_single x hx
      | cons p ps =>
        have hp : p.isDigit = false := hpost p (List.mem_cons_self p ps)
        rw [List.cons_append, List.nil_append,
          dr_digit_nondigit x p ps hx hp,
          digitRuns_nil_of_none (p :: ps) hpost]
    | cons y ys =>
      have hy : y.isDigit = true := hdig y (by simp)
      have ih2 := ih (by simp) (fun d hd => hdig d (List.mem_cons_of_mem x hd))
      rw [List.cons_append, List.cons_append]
      have hsplit : digitRuns (y :: (ys ++ post)) = (y :: ys) :: [] := by
        rw [← List.cons_append]
        exact ih2
      rw [dr_two_digit x y (ys ++ post) hx hy (y :: ys) [] hsplit]

/-- Declarative statement that `run` is the last maximal digit run of `name`:
`run` is a nonempty all-digit block, nothing after it contains a digit, and the
character just before it (if any) is not a digit. -/
def IsLastDigitRun (name run : List Char) : Prop :=
  run ≠ [] ∧ (∀ c ∈ run, c.isDigit = true) ∧
  ∃ pre post, name = pre ++ (run ++ post) ∧ (∀ c ∈ post, c.isDigit = false) ∧
    (pre = [] ∨ ∃ q d, pre = q ++ [d] ∧ d.isDigit = false)

theorem digitRuns_last_of_isLast (name run : List Char)
    (h : IsLastDigitRun name run) : (digitRuns name).getLast? = some run := by
  obtain ⟨hne, hdig, pre, post, rfl, hpost, hpre⟩ := h
  have h2 : digitRuns (pre ++ (run ++ post))
      = digitRuns pre ++ digitRuns (run ++ post) := by
    apply digitRuns_append
    intro c hc
    rcases hpre with rfl | ⟨q, d, rfl, hd⟩
    · simp at hc
    · rw [List.getLast?_concat] at hc
      injection hc with hc
      rw [← hc]
      exact hd
  rw [h2, digitRuns_run_append run post hne hdig hpost, List.getLast?_concat]

theorem pointsOf_of_isLast (pm : Int → List Point) (name run : List Char)
    (h : IsLastDigitRun name run) :
    pointsOf pm name = pm (Int.ofNat (natOfDigits run)) := by
  rw [pointsOf, digitRuns_last_of_isLast name run h]

theorem pointsOf_of_noDigits (pm : Int → List Point) (name : List Char)
    (h : ∀ c ∈ name, c.isDigit = false) : pointsOf pm name = [] := by
  rw [pointsOf, digitRuns_nil_of_none name h]
  rfl

/-! ### Shape of a successful run -/

theorem split_ok_shape (inputFiles : List Img) (folderFiles : List (List Char))
    (outputPfx : List Char) (csvExists csvReadable : Bool)
    (header : List String) (rawRows : List (List String))
    (fps frames_per_video : Nat) (frame_size : Option (Nat × Nat))
    (csvWriteOk : Nat → Bool) (outs : List VideoOut)
    (h : split_images_to_videos inputFiles folderFiles outputPfx csvExists
      csvReadable header rawRows fps frames_per_video frame_size csvWriteOk
      = Except.ok outs) :
    ∃ first rest,
      natsortImgs (inputFiles.filter (fun f => hasImageExt f.name))
        = first :: rest ∧
      first.ok = true ∧ frames_per_video ≠ 0 ∧
      outs = (List.range
          (((first :: rest).length + frames_per_video - 1) / frames_per_video)).map
        (mkVideoOut (load_csv_data csvExists csvReadable header rawRows)
          outputPfx (first :: rest) frames_per_video
          (get_next_video_index outputPfx folderFiles) csvWriteOk) := by
  unfold split_images_to_videos at h
  cases him : natsortImgs (inputFiles.filter (fun f => hasImageExt f.name)) with
  | nil =>
    simp only [him] at h
    exact Except.noConfusion h
  | cons first rest =>
    simp only [him] at h
    by_cases hok : first.ok = false
    · rw [if_pos hok] at h
      exact Except.noConfusion h
    · rw [if_neg hok] at h
      by_cases hC : frames_per_video = 0
      · rw [if_pos hC] at h
        exact Except.noConfusion h
      · rw [if_neg hC] at h
        injection h with h
        exact ⟨first, rest, rfl, by simpa using hok, hC, h.symm⟩

theorem ceil_pos (M C : Nat) (hC : 0 < C) (hM : 0 < M) :
    0 < (M + C - 1) / C := by
  rw [ceil_div_eq M C hC]
  by_cases h0 : M % C = 0
  · rw [if_pos h0, Nat.add_zero]
    have hmod := Nat.div_add_mod M C
    rcases Nat.eq_zero_or_pos (M / C) with hz | hp
    · rw [hz] at hmod; omega
    · exact hp
  · rw [if_neg h0]; exact Nat.succ_pos _

theorem ceil_mul_ge (M C : Nat) (hC : 0 < C) :
    M ≤ ((M + C - 1) / C) * C := by
  rw [ceil_div_eq M C hC]
  have hmod := Nat.div_add_mod M C
  have hr : M % C < C := Nat.mod_lt M hC
  by_cases h0 : M % C = 0
  · rw [if_pos h0, Nat.add_zero]
    have e : (M / C) * C = C * (M / C) := Nat.mul_comm _ _
    omega
  · rw [if_neg h0]
    have e : (M / C + 1) * C = C * (M / C) + C := by ring
    omega

theorem ceil_pred_mul_lt (M C : Nat) (hC : 0 < C) (hM : 0 < M) :
    (((M + C - 1) / C) - 1) * C < M := by
  rw [ceil_div_eq M C hC]
  have hmod := Nat.div_add_mod M C
  have hr : M % C < C := Nat.mod_lt M hC
  by_cases h0 : M % C = 0
  · rw [if_pos h0, Nat.add_zero]
    have hq : 1 ≤ M / C := by
      rcases Nat.eq_zero_or_pos (M / C) with hz | hp
      · rw [hz] at hmod; omega
      · exact hp
    obtain ⟨q, hq2⟩ : ∃ q, M / C = q + 1 := ⟨M / C - 1, by omega⟩
    rw [hq2] at hmod ⊢
    simp only [Nat.add_sub_cancel]
    have e1 : C * (q + 1) = C * q + C := by ring
    have e2 : q * C = C * q := Nat.mul_comm q C
    omega
  · rw [if_neg h0]
    simp only [Nat.add_sub_cancel]
    have e : (M / C) * C = C * (M / C) := Nat.mul_comm _ _
    omega

theorem full_slice_length (M C i : Nat) (hC : 0 < C)
    (hi : i + 1 < (M + C - 1) / C) : min C (M - i * C) = C := by
  have h1 : i + 1 ≤ M / C := by
    have hce := ceil_div_eq M C hC
    rw [hce] at hi
    split at hi <;> omega
  have h2 : (i + 1) * C ≤ (M / C) * C := Nat.mul_le_mul_right C h1
  have h3 : (M / C) * C ≤ M := Nat.div_mul_le_self M C
  have e : (i + 1) * C = i * C + C := by ring
  exact Nat.min_eq_left (by omega)

theorem last_slice_length (M C : Nat) (hC : 0 < C) (hM : 0 < M) :
    min C (M - (((M + C - 1) / C) - 1) * C)
      = if M % C = 0 then C else M % C := by
  have hmod := Nat.div_add_mod M C
  have hr : M % C < C := Nat.mod_lt M hC
  rw [ceil_div_eq M C hC]
  by_cases h0 : M % C = 0
  · rw [if_pos h0, if_pos h0, Nat.add_zero]
    have hq : 1 ≤ M / C := by
      rcases Nat.eq_zero_or_pos (M / C) with hz | hp
      · rw [hz] at hmod; omega
      · exact hp
    obtain ⟨q, hq2⟩ : ∃ q, M / C = q + 1 := ⟨M / C - 1, by omega⟩
    rw [hq2] at hmod ⊢
    simp only [Nat.add_sub_cancel]
    have e1 : C * (q + 1) = C * q + C := by ring
    have e2 : q * C = C * q := Nat.mul_comm q C
    have e3 : M - q * C = C := by omega
    rw [e3, Nat.min_self]
  · rw [if_neg h0, if_neg h0]
    simp only [Nat.add_sub_cancel]
    have e2 : (M / C) * C = C * (M / C) := Nat.mul_comm _ _
    have e3 : M - (M / C) * C = M % C := by omega
    rw [e3]
    exact Nat.min_eq_right (by omega)

/-- C1: for chunk size `C > 0` and image count `M > 0`, the run partitions the
sorted image list into exactly `ceil(M / C)` chunks (witnessed both by the
closed formula `(M + C - 1) / C` and by the bounds that pin down the ceiling),
every chunk except the last holds exactly `C` images, the last holds
`M mod C` images (or `C` when `C` divides `M`), and concatenating the chunks
in order gives back the whole sorted list. -/
theorem c1_chunk_partition (inputFiles : List Img)
    (folderFiles : List (List Char)) (outputPfx : List Char)
    (csvExists csvReadable : Bool) (header : List String)
    (rawRows : List (List String)) (fps C : Nat)
    (frame_size : Option (Nat × Nat)) (csvWriteOk : Nat → Bool)
    (outs : List VideoOut) (images : List Img) (M : Nat)
    (h : split_images_to_videos inputFiles folderFiles outputPfx csvExists
      csvReadable header rawRows fps C frame_size csvWriteOk = Except.ok outs)
    (himg : images = natsortImgs (inputFiles.filter (fun f => hasImageExt f.name)))
    (hM : M = images.length) :
    outs.length = (M + C - 1) / C ∧
    M ≤ outs.length * C ∧
    (outs.length - 1) * C < M ∧
    (∀ i o, i + 1 < outs.length → outs[i]? = some o → o.chunk.length = C) ∧
    (∀ o, outs.getLast? = some o →
      o.chunk.length = if M % C = 0 then C else M % C) ∧
    (outs.map (fun o => o.chunk)).flatten = images := by
  obtain ⟨first, rest, him, hok, hC0, houts⟩ :=
    split_ok_shape inputFiles folderFiles outputPfx csvExists csvReadable
      header rawRows fps C frame_size csvWriteOk outs h
  have hCpos : 0 < C := Nat.pos_of_ne_zero hC0
  have himg2 : images = first :: rest := by rw [himg, him]
  have hM2 : (first :: rest).length = M := by rw [hM, himg2]
  have hMpos : 0 < M := by rw [← hM2]; simp
  have hlen : outs.length = (M + C - 1) / C := by
    rw [houts, List.length_map, List.length_range, hM2]
  refine ⟨hlen, ?_, ?_, ?_, ?_, ?_⟩
  · rw [hlen]; exact ceil_mul_ge M C hCpos
  · rw [hlen]; exact ceil_pred_mul_lt M C hCpos hMpos
  · intro i o hi hio
    rw [houts, List.getElem?_map] at hio
    have hiT : i < ((first :: rest).length + C - 1) / C := by
      rw [hlen] at hi; rw [hM2]; omega
    rw [List.getElem?_range hiT] at hio
    simp only [Option.map_some'] at hio
    injection hio with hio
    rw [← hio]
    show ((mkVideoOut (load_csv_data csvExists csvReadable header rawRows)
      outputPfx (first :: rest) C
      (get_next_video_index outputPfx folderFiles) csvWriteOk i).chunk).length = C
    rw [show (mkVideoOut (load_csv_data csvExists csvReadable header rawRows)
      outputPfx (first :: rest) C
      (get_next_video_index outputPfx folderFiles) csvWriteOk i).chunk
      = (((first :: rest).drop (i * C)).take C) from rfl]
    rw [slice_length, hM2]
    exact full_slice_length M C i hCpos (by rw [hlen] at hi; exact hi)
  · intro o hlast
    have hT : 0 < outs.length := by
      rw [hlen]
      exact ceil_pos M C hCpos hMpos
    rw [List.getLast?_eq_getElem?] at hlast
    rw [houts, List.getElem?_map] at hlast
    have hlen2 : outs.length =
        (((first :: rest).length + C - 1) / C) := by rw [hlen, hM2]
    rw [← houts, hlen2] at hlast
    have hiT : (((first :: rest).length + C - 1) / C) - 1
        < (((first :: rest).length + C - 1) / C) := by
      rw [← hlen2]; omega
    rw [List.getElem?_range hiT] at hlast
    simp only [Option.map_some'] at hlast
    injection hlast with hlast
    rw [← hlast]
    rw [show (mkVideoOut (load_csv_data csvExists csvReadable header rawRows)
      outputPfx (first :: rest) C
      (get_next_video_index outputPfx folderFiles) csvWriteOk
      ((((first :: rest).length + C - 1) / C) - 1)).chunk
      = (((first :: rest).drop (((((first :: rest).length + C - 1) / C) - 1) * C)).take C)
      from rfl]
    rw [slice_length, hM2]
    exact last_slice_length M C hCpos hMpos
  · rw [houts, List.map_map]
    have hcomp : ((fun o => o.chunk) ∘ (mkVideoOut
        (load_csv_data csvExists csvReadable header rawRows) outputPfx
        (first :: rest) C (get_next_video_index outputPfx folderFiles)
        csvWriteOk)) = (fun i => ((first :: rest).drop (i * C)).take C) := by
      funext i
      rfl
    rw [hcomp, slices_flatten, himg2]
    apply List.take_of_length_le
    rw [hM2]
    exact ceil_mul_ge M C hCpos

/-! ### Existing output files and the next sequence index -/

theorem get_next_gt (outputPfx : List Char) (folderFiles : List (List Char))
    (N : Nat) (hex : mkCleanName outputPfx N ∈ folderFiles) :
    N < get_next_video_index outputPfx folderFiles := by
  unfold get_next_video_index
  have hsfx : mkCleanName outputPfx N
      = (outputPfx ++ '_' :: toDecimal N) ++ cleanTag := by
    rw [mkCleanName]
    simp [List.append_assoc]
  have hfil : mkCleanName outputPfx N ∈ folderFiles.filter
      (fun f => isPre outputPfx f && containsSub cleanTag f) := by
    rw [List.mem_filter]
    refine ⟨hex, ?_⟩
    rw [Bool.and_eq_true]
    constructor
    · rw [mkCleanName]
      exact isPre_append outputPfx _
    · rw [hsfx]
      exact containsSub_of_append cleanTag _
  have hN : N ∈ (folderFiles.filter
      (fun f => isPre outputPfx f && containsSub cleanTag f)).filterMap
      (fun f => searchIdx outputPfx f) := by
    rw [List.mem_filterMap]
    exact ⟨mkCleanName outputPfx N, hfil, searchIdx_mkCleanName outputPfx N⟩
  have hle := mem_le_foldl_max _ 0 N hN
  exact Nat.lt_succ_of_le hle

/-- C2: when the output directory already holds a file literally named
`<prefix>_<N>_clean.mp4`, every chunk of a new successful run gets a sequence
index strictly greater than `N`, and in particular its clean output path
differs from that existing file name. -/
theorem c2_no_overwrite (inputFiles : List Img)
    (folderFiles : List (List Char)) (outputPfx : List Char)
    (csvExists csvReadable : Bool) (header : List String)
    (rawRows : List (List String)) (fps C : Nat)
    (frame_size : Option (Nat × Nat)) (csvWriteOk : Nat → Bool)
    (outs : List VideoOut) (N : Nat)
    (h : split_images_to_videos inputFiles folderFiles outputPfx csvExists
      csvReadable header rawRows fps C frame_size csvWriteOk = Except.ok outs)
    (hex : mkCleanName outputPfx N ∈ folderFiles) :
    ∀ o ∈ outs, N < o.vidIdx ∧ o.cleanPath ≠ mkCleanName outputPfx N := by
  obtain ⟨first, rest, him, hok, hC0, houts⟩ :=
    split_ok_shape inputFiles folderFiles outputPfx csvExists csvReadable
      header rawRows fps C frame_size csvWriteOk outs h
  intro o ho
  rw [houts] at ho
  obtain ⟨i, hir, rfl⟩ := List.mem_map.1 ho
  have hgt := get_next_gt outputPfx folderFiles N hex
  constructor
  · show N < get_next_video_index outputPfx folderFiles + i
    omega
  · intro heq
    have : get_next_video_index outputPfx folderFiles + i = N :=
      mkCleanName_inj outputPfx _ N heq
    omega

/-! ### Stream bookkeeping lemmas -/

theorem filterMap_okIdx_fst (pm : Int → List Point) (l : List (Nat × Img)) :
    l.filterMap okIdx = (l.filterMap (annFrame pm)).map Prod.fst := by
  induction l with
  | nil => rfl
  | cons pr rest ih =>
    by_cases h : pr.2.ok
    · simp [okIdx, annFrame, List.filterMap_cons, h, ih]
    · simp [okIdx, annFrame, List.filterMap_cons, h, ih]

theorem length_filterMap_okIdx (l : List (Nat × Img)) :
    (l.filterMap okIdx).length = l.countP (fun pr => pr.2.ok) := by
  induction l with
  | nil => rfl
  | cons pr rest ih =>
    by_cases h : pr.2.ok
    · simp [okIdx, List.filterMap_cons, List.countP_cons, h, ih]
    · simp [okIdx, List.filterMap_cons, List.countP_cons, h, ih]

theorem enumFromN_countP_ok (l : List Img) :
    ∀ n, (enumFromN n l).countP (fun pr => pr.2.ok)
      = l.countP (fun im => im.ok) := by
  induction l with
  | nil => intro n; rfl
  | cons im rest ih =>
    intro n
    simp only [enumFromN, List.countP_cons, ih (n + 1)]

theorem countP_ok_split (l : List Img) :
    l.countP (fun im => im.ok) + l.countP (fun im => !im.ok) = l.length := by
  induction l with
  | nil => rfl
  | cons im rest ih =>
    cases h : im.ok <;> simp [List.countP_cons, h] <;> omega

/-- C4: in every chunk of a successful run, the clean and annotated streams
receive exactly the same frames — the clean stream is the annotated stream
without its drawn points — and their common length counts exactly the images of
the chunk that decoded (skipped decodes are missing from both). -/
theorem c4_equal_frame_counts (inputFiles : List Img)
    (folderFiles : List (List Char)) (outputPfx : List Char)
    (csvExists csvReadable : Bool) (header : List String)
    (rawRows : List (List String)) (fps C : Nat)
    (frame_size : Option (Nat × Nat)) (csvWriteOk : Nat → Bool)
    (outs : List VideoOut)
    (h : split_images_to_videos inputFiles folderFiles outputPfx csvExists
      csvReadable header rawRows fps C frame_size csvWriteOk = Except.ok outs) :
    ∀ o ∈ outs,
      o.output.cleanFrames.length = o.output.annotatedFrames.length ∧
      o.output.cleanFrames = o.output.annotatedFrames.map Prod.fst ∧
      o.output.cleanFrames.length = o.chunk.countP (fun im => im.ok) := by
  obtain ⟨first, rest, him, hok1, hC0, houts⟩ :=
    split_ok_shape inputFiles folderFiles outputPfx csvExists csvReadable
      header rawRows fps C frame_size csvWriteOk outs h
  intro o ho
  rw [houts] at ho
  obtain ⟨i, hir, rfl⟩ := List.mem_map.1 ho
  have hout : (mkVideoOut (load_csv_data csvExists csvReadable header rawRows)
      outputPfx (first :: rest) C (get_next_video_index outputPfx folderFiles)
      csvWriteOk i).output
      = processChunk (load_csv_data csvExists csvReadable header rawRows)
        (((first :: rest).drop (i * C)).take C) := rfl
  have hchunk : (mkVideoOut (load_csv_data csvExists csvReadable header rawRows)
      outputPfx (first :: rest) C (get_next_video_index outputPfx folderFiles)
      csvWriteOk i).chunk = ((first :: rest).drop (i * C)).take C := rfl
  rw [hout, hchunk, processChunk_eq]
  refine ⟨?_, ?_, ?_⟩
  · simp only []
    rw [filterMap_okIdx_fst (load_csv_data csvExists csvReadable header rawRows),
      List.length_map]
  · simp only []
    exact filterMap_okIdx_fst _ _
  · simp only []
    rw [length_filterMap_okIdx, pyEnum, enumFromN_countP_ok]

/-- C5: with a positive chunk size, a run aborts with an error exactly when
the filtered, naturally sorted image list is empty or its first image fails to
decode; for every other input — missing or unreadable annotation CSV, malformed
or short annotation rows, decode failures after the first image, failing chunk
CSV writes — the run returns normally. -/
theorem c5_fatal_cases (inputFiles : List Img)
    (folderFiles : List (List Char)) (outputPfx : List Char)
    (csvExists csvReadable : Bool) (header : List String)
    (rawRows : List (List String)) (fps frames_per_video : Nat)
    (frame_size : Option (Nat × Nat)) (csvWriteOk : Nat → Bool)
    (hC : 0 < frames_per_video) :
    (∃ e, split_images_to_videos inputFiles folderFiles outputPfx csvExists
        csvReadable header rawRows fps frames_per_video frame_size csvWriteOk
        = Except.error e) ↔
      (natsortImgs (inputFiles.filter (fun f => hasImageExt f.name)) = [] ∨
       ∃ im rest2,
         natsortImgs (inputFiles.filter (fun f => hasImageExt f.name))
           = im :: rest2 ∧ im.ok = false) := by
  unfold split_images_to_videos
  cases him : natsortImgs (inputFiles.filter (fun f => hasImageExt f.name)) with
  | nil =>
    simp only [him]
    constructor
    · intro _
      exact Or.inl trivial
    · intro _
      exact ⟨_, rfl⟩
  | cons first rest =>
    simp only [him]
    by_cases hokf : first.ok = false
    · rw [if_pos hokf]
      constructor
      · intro _
        exact Or.inr ⟨first, rest, rfl, hokf⟩
      · intro _
        exact ⟨_, rfl⟩
    · rw [if_neg hokf, if_neg (by omega : ¬(frames_per_video = 0))]
      constructor
      · rintro ⟨e, he⟩
        exact Except.noConfusion he
      · rintro (hnil | ⟨im, rest2, heq, himok⟩)
        · exact List.noConfusion hnil
        · injection heq with h1 _
          exact absurd (h1 ▸ himok) hokf

/-- C6: every row of a per-chunk annotation file carries a Frame value that is
the 0-based position, within the chunk slice, of the image that produced it —
in particular every Frame value lies in `[0, frames_per_video)` — and the row
body is one of the points looked up for that image. -/
theorem c6_chunk_local_frames (inputFiles : List Img)
    (folderFiles : List (List Char)) (outputPfx : List Char)
    (csvExists csvReadable : Bool) (header : List String)
    (rawRows : List (List String)) (fps C : Nat)
    (frame_size : Option (Nat × Nat)) (csvWriteOk : Nat → Bool)
    (outs : List VideoOut)
    (h : split_images_to_videos inputFiles folderFiles outputPfx csvExists
      csvReadable header rawRows fps C frame_size csvWriteOk = Except.ok outs) :
    ∀ o ∈ outs, ∀ row ∈ o.output.rows,
      row.frame < C ∧ row.frame < o.chunk.length ∧
      ∃ img, o.chunk[row.frame]? = some img ∧ img.ok = true ∧
        ∃ p ∈ pointsOf (load_csv_data csvExists csvReadable header rawRows)
            img.name,
          row = { frame := row.frame, objName := p.name, x := p.x, y := p.y } := by
  obtain ⟨first, rest, him, hok1, hC0, houts⟩ :=
    split_ok_shape inputFiles folderFiles outputPfx csvExists csvReadable
      header rawRows fps C frame_size csvWriteOk outs h
  intro o ho row hrow
  rw [houts] at ho
  obtain ⟨i, hir, rfl⟩ := List.mem_map.1 ho
  have hout : (mkVideoOut (load_csv_data csvExists csvReadable header rawRows)
      outputPfx (first :: rest) C (get_next_video_index outputPfx folderFiles)
      csvWriteOk i).output
      = processChunk (load_csv_data csvExists csvReadable header rawRows)
        (((first :: rest).drop (i * C)).take C) := rfl
  have hchunk : (mkVideoOut (load_csv_data csvExists csvReadable header rawRows)
      outputPfx (first :: rest) C (get_next_video_index outputPfx folderFiles)
      csvWriteOk i).chunk = ((first :: rest).drop (i * C)).take C := rfl
  rw [hout] at hrow
  obtain ⟨j, img, hj, hrowj⟩ := (rows_mem_iff _ _ row).1 hrow
  obtain ⟨hf, hokimg, p, hp, hrowp⟩ := imageRows_frame _ j img row hrowj
  have hj2 : (((first :: rest).drop (i * C)).take C)[row.frame]? = some img := by
    rw [hf]; exact hj
  have hjlen : row.frame < (((first :: rest).drop (i * C)).take C).length :=
    (List.getElem?_eq_some.1 hj2).1
  have hlenC : (((first :: rest).drop (i * C)).take C).length ≤ C :=
    List.length_take_le C _
  rw [hchunk]
  refine ⟨by omega, hjlen, img, hj2, hokimg, p, hp, ?_⟩
  rw [hrowp]

/-- C10: a row of a per-chunk annotation file records, as its Frame value, the
position of its image in the chunk slice, which equals the number of frames
actually written to the output videos before that image plus the number of
images skipped (failed decodes) before it — so after `k` skips the recorded
value exceeds the output-video frame position by `k`. -/
theorem c10_skip_offset (inputFiles : List Img)
    (folderFiles : List (List Char)) (outputPfx : List Char)
    (csvExists csvReadable : Bool) (header : List String)
    (rawRows : List (List String)) (fps C : Nat)
    (frame_size : Option (Nat × Nat)) (csvWriteOk : Nat → Bool)
    (outs : List VideoOut)
    (h : split_images_to_videos inputFiles folderFiles outputPfx csvExists
      csvReadable header rawRows fps C frame_size csvWriteOk = Except.ok outs) :
    ∀ o ∈ outs, ∀ row ∈ o.output.rows,
      ∃ img, o.chunk[row.frame]? = some img ∧ img.ok = true ∧
        row.frame
          = (processChunk (load_csv_data csvExists csvReadable header rawRows)
              (o.chunk.take row.frame)).cleanFrames.length
            + (o.chunk.take row.frame).countP (fun im => !im.ok) := by
  obtain ⟨first, rest, him, hok1, hC0, houts⟩ :=
    split_ok_shape inputFiles folderFiles outputPfx csvExists csvReadable
      header rawRows fps C frame_size csvWriteOk outs h
  intro o ho row hrow
  rw [houts] at ho
  obtain ⟨i, hir, rfl⟩ := List.mem_map.1 ho
  have hout : (mkVideoOut (load_csv_data csvExists csvReadable header rawRows)
      outputPfx (first :: rest) C (get_next_video_index outputPfx folderFiles)
      csvWriteOk i).output
      = processChunk (load_csv_data csvExists csvReadable header rawRows)
        (((first :: rest).drop (i * C)).take C) := rfl
  have hchunk : (mkVideoOut (load_csv_data csvExists csvReadable header rawRows)
      outputPfx (first :: rest) C (get_next_video_index outputPfx folderFiles)
      csvWriteOk i).chunk = ((first :: rest).drop (i * C)).take C := rfl
  rw [hout] at hrow
  obtain ⟨j, img, hj, hrowj⟩ := (rows_mem_iff _ _ row).1 hrow
  obtain ⟨hf, hokimg, p, hp, hrowp⟩ := imageRows_frame _ j img row hrowj
  have hj2 : (((first :: rest).drop (i * C)).take C)[row.frame]? = some img := by
    rw [hf]; exact hj
  have hjlen : row.frame < (((first :: rest).drop (i * C)).take C).length :=
    (List.getElem?_eq_some.1 hj2).1
  rw [hchunk]
  refine ⟨img, hj2, hokimg, ?_⟩
  have hlenpref :
      (processChunk (load_csv_data csvExists csvReadable header rawRows)
        ((((first :: rest).drop (i * C)).take C).take row.frame)).cleanFrames.length
      = ((((first :: rest).drop (i * C)).take C).take row.frame).countP
          (fun im => im.ok) := by
    rw [processChunk_eq]
    simp only []
    rw [length_filterMap_okIdx, pyEnum, enumFromN_countP_ok]
  have hsum := countP_ok_split ((((first :: rest).drop (i * C)).take C).take row.frame)
  have htl : ((((first :: rest).drop (i * C)).take C).take row.frame).length
      = row.frame := by
    rw [List.length_take]
    exact Nat.min_eq_left (le_of_lt hjlen)
  omega

/-- C8: for an image of a chunk that decodes, the points looked up for it are
keyed by the numeric value of the last maximal digit run of its filename
(characterised declaratively by `IsLastDigitRun`); an image whose filename has
no digits contributes no annotation rows and no drawn points, yet its frame is
still written to both the clean and the annotated stream. -/
theorem c8_filename_frame_number (inputFiles : List Img)
    (folderFiles : List (List Char)) (outputPfx : List Char)
    (csvExists csvReadable : Bool) (header : List String)
    (rawRows : List (List String)) (fps C : Nat)
    (frame_size : Option (Nat × Nat)) (csvWriteOk : Nat → Bool)
    (outs : List VideoOut)
    (h : split_images_to_videos inputFiles folderFiles outputPfx csvExists
      csvReadable header rawRows fps C frame_size csvWriteOk = Except.ok outs) :
    ∀ o ∈ outs, ∀ i img, o.chunk[i]? = some img → img.ok = true →
      ((i, pointsOf (load_csv_data csvExists csvReadable header rawRows)
          img.name) ∈ o.output.annotatedFrames ∧
        i ∈ o.output.cleanFrames) ∧
      (∀ run, IsLastDigitRun img.name run →
        pointsOf (load_csv_data csvExists csvReadable header rawRows) img.name
          = load_csv_data csvExists csvReadable header rawRows
              (Int.ofNat (natOfDigits run))) ∧
      ((∀ c ∈ img.name, c.isDigit = false) →
        pointsOf (load_csv_data csvExists csvReadable header rawRows) img.name
            = [] ∧
          (i, []) ∈ o.output.annotatedFrames ∧
          (∀ row ∈ o.output.rows, row.frame ≠ i)) := by
  obtain ⟨first, rest, him, hok1, hC0, houts⟩ :=
    split_ok_shape inputFiles folderFiles outputPfx csvExists csvReadable
      header rawRows fps C frame_size csvWriteOk outs h
  intro o ho i img hi hokimg
  rw [houts] at ho
  obtain ⟨k, hkr, rfl⟩ := List.mem_map.1 ho
  have hout : (mkVideoOut (load_csv_data csvExists csvReadable header rawRows)
      outputPfx (first :: rest) C (get_next_video_index outputPfx folderFiles)
      csvWriteOk k).output
      = processChunk (load_csv_data csvExists csvReadable header rawRows)
        (((first :: rest).drop (k * C)).take C) := rfl
  have hchunk : (mkVideoOut (load_csv_data csvExists csvReadable header rawRows)
      outputPfx (first :: rest) C (get_next_video_index outputPfx folderFiles)
      csvWriteOk k).chunk = ((first :: rest).drop (k * C)).take C := rfl
  rw [hchunk] at hi
  have henum : (i, img) ∈ pyEnum (((first :: rest).drop (k * C)).take C) :=
    (mem_pyEnum _ (i, img)).2 hi
  refine ⟨⟨?_, ?_⟩, ?_, ?_⟩
  · rw [hout, processChunk_eq]
    simp only []
    exact List.mem_filterMap.2 ⟨(i, img), henum, by simp [annFrame, hokimg]⟩
  · rw [hout, processChunk_eq]
    simp only []
    exact List.mem_filterMap.2 ⟨(i, img), henum, by simp [okIdx, hokimg]⟩
  · intro run hrun
    exact pointsOf_of_isLast _ img.name run hrun
  · intro hnod
    have hpts := pointsOf_of_noDigits
      (load_csv_data csvExists csvReadable header rawRows) img.name hnod
    refine ⟨hpts, ?_, ?_⟩
    · rw [hout, processChunk_eq]
      simp only []
      refine List.mem_filterMap.2 ⟨(i, img), henum, ?_⟩
      rw [annFrame, if_pos hokimg, hpts]
    · intro row hrow hfr
      rw [hout] at hrow
      obtain ⟨j, img2, hj, hrowj⟩ := (rows_mem_iff _ _ row).1 hrow
      obtain ⟨hf, hokimg2, p, hp, hrowp⟩ := imageRows_frame _ j img2 row hrowj
      have hji : j = i := by rw [← hf, hfr]
      rw [hji] at hj
      rw [hi] at hj
      injection hj with hj
      rw [hj] at hpts
      rw [hpts] at hp
      cases hp

/-- C7: assuming the chunk CSV writes themselves do not fail, a chunk CSV file
is produced if and only if at least one annotation row was collected for the
chunk, and when produced it consists of the `DictWriter` header followed by
exactly the collected rows; a chunk with no rows produces no file while the run
still returns normally. -/
theorem c7_csv_written_iff (inputFiles : List Img)
    (folderFiles : List (List Char)) (outputPfx : List Char)
    (csvExists csvReadable : Bool) (header : List String)
    (rawRows : List (List String)) (fps C : Nat)
    (frame_size : Option (Nat × Nat)) (csvWriteOk : Nat → Bool)
    (outs : List VideoOut)
    (hw : ∀ i, csvWriteOk i = true)
    (h : split_images_to_videos inputFiles folderFiles outputPfx csvExists
      csvReadable header rawRows fps C frame_size csvWriteOk = Except.ok outs) :
    ∀ o ∈ outs,
      ((∃ content, o.csvFile = some content) ↔ o.output.rows ≠ []) ∧
      (∀ content, o.csvFile = some content
        → content = (csvFields, o.output.rows)) := by
  obtain ⟨first, rest, him, hok1, hC0, houts⟩ :=
    split_ok_shape inputFiles folderFiles outputPfx csvExists csvReadable
      header rawRows fps C frame_size csvWriteOk outs h
  intro o ho
  rw [houts] at ho
  obtain ⟨i, hir, rfl⟩ := List.mem_map.1 ho
  have hcsv : (mkVideoOut (load_csv_data csvExists csvReadable header rawRows)
      outputPfx (first :: rest) C (get_next_video_index outputPfx folderFiles)
      csvWriteOk i).csvFile
      = if (processChunk (load_csv_data csvExists csvReadable header rawRows)
            (((first :: rest).drop (i * C)).take C)).rows.isEmpty then none
        else if csvWriteOk i then
          some (csvFields,
            (processChunk (load_csv_data csvExists csvReadable header rawRows)
              (((first :: rest).drop (i * C)).take C)).rows)
        else none := rfl
  have hout : (mkVideoOut (load_csv_data csvExists csvReadable header rawRows)
      outputPfx (first :: rest) C (get_next_video_index outputPfx folderFiles)
      csvWriteOk i).output
      = processChunk (load_csv_data csvExists csvReadable header rawRows)
        (((first :: rest).drop (i * C)).take C) := rfl
  rw [hcsv, hout, hw i, if_pos rfl]
  by_cases he : (processChunk (load_csv_data csvExists csvReadable header
      rawRows) (((first :: rest).drop (i * C)).take C)).rows.isEmpty
  · rw [if_pos he]
    have hnil := List.isEmpty_iff.1 he
    constructor
    · constructor
      · rintro ⟨content, hc⟩
        exact Option.noConfusion hc
      · intro hne
        exact absurd hnil hne
    · intro content hc
      exact Option.noConfusion hc
  · rw [if_neg he]
    have hne : (processChunk (load_csv_data csvExists csvReadable header
        rawRows) (((first :: rest).drop (i * C)).take C)).rows ≠ [] := by
      intro hnil
      rw [List.isEmpty_iff] at he
      exact he hnil
    constructor
    · constructor
      · intro _
        exact hne
      · intro _
        exact ⟨_, rfl⟩
    · intro content hc
      injection hc with hc
      rw [← hc]

/-! ### Row-level behaviour of the annotation loader -/

/-- The condition under which reading an integer column is skipped by the inner
handler: the column is absent from the header (`KeyError`), or its cell fails
Python `int` parsing (`ValueError`). -/
def ColSkips (header row : List String) (col : String) : Prop :=
  colIdx header col = none ∨
  ∃ i s, colIdx header col = some i ∧ row[i]? = some s ∧ pyInt? s = none

/-- The condition under which reading an integer column raises `TypeError`
through the inner handler: the column exists in the header but the row is too
short to give it a value, so `DictReader` filled in `None`. -/
def ColNull (header row : List String) (col : String) : Prop :=
  ∃ i, colIdx header col = some i ∧ row[i]? = none

/-- The condition under which an integer column reads successfully as `v`. -/
def ColVal (header row : List String) (col : String) (v : Int) : Prop :=
  ∃ i s, colIdx header col = some i ∧ row[i]? = some s ∧ pyInt? s = some v

theorem readIntCell_skip_iff (header row : List String) (col : String) :
    readIntCell header row col = CellRead.cskip ↔ ColSkips header row col := by
  unfold readIntCell dictGet ColSkips
  cases hc : colIdx header col with
  | none =>
    simp only [Option.map_none']
    constructor
    · intro _
      exact Or.inl trivial
    · intro _
      trivial
  | some i =>
    simp only [Option.map_some']
    cases hr : row[i]? with
    | none =>
      simp only []
      constructor
      · intro hcontra
        exact CellRead.noConfusion hcontra
      · rintro (hnone | ⟨i2, s, hi2, hs, hps⟩)
        · cases hnone
        · injection hi2 with hi2
          rw [← hi2] at hs
          rw [hr] at hs
          cases hs
    | some s =>
      simp only []
      cases hp : pyInt? s with
      | none =>
        simp only []
        constructor
        · intro _
          exact Or.inr ⟨i, s, rfl, hr, hp⟩
        · intro _
          trivial
      | some v =>
        simp only []
        constructor
        · intro hcontra
          exact CellRead.noConfusion hcontra
        · rintro (hnone | ⟨i2, s2, hi2, hs2, hps2⟩)
          · cases hnone
          · injection hi2 with hi2
            rw [← hi2] at hs2
            rw [hr] at hs2
            injection hs2 with hs2
            rw [← hs2] at hps2
            rw [hp] at hps2
            cases hps2

theorem readIntCell_err_iff (header row : List String) (col : String) :
    readIntCell header row col = CellRead.cerr ↔ ColNull header row col := by
  unfold readIntCell dictGet ColNull
  cases hc : colIdx header col with
  | none =>
    simp only [Option.map_none']
    constructor
    · intro hcontra
      exact CellRead.noConfusion hcontra
    · rintro ⟨i, hi, -⟩
      cases hi
  | some i =>
    simp only [Option.map_some']
    cases hr : row[i]? with
    | none =>
      simp only []
      constructor
      · intro _
        exact ⟨i, rfl, hr⟩
      · intro _
        trivial
    | some s =>
      simp only []
      cases hp : pyInt? s with
      | none =>
        simp only []
        constructor
        · intro hcontra
          exact CellRead.noConfusion hcontra
        · rintro ⟨i2, hi2, hs2⟩
          injection hi2 with hi2
          rw [← hi2] at hs2
          rw [hr] at hs2
          cases hs2
      | some v =>
        simp only []
        constructor
        · intro hcontra
          exact CellRead.noConfusion hcontra
        · rintro ⟨i2, hi2, hs2⟩
          injection hi2 with hi2
          rw [← hi2] at hs2
          rw [hr] at hs2
          cases hs2

theorem readIntCell_ok_iff (header row : List String) (col : String) (v : Int) :
    readIntCell header row col = CellRead.cok v ↔ ColVal header row col v := by
  unfold readIntCell dictGet ColVal
  cases hc : colIdx header col with
  | none =>
    simp only [Option.map_none']
    constructor
    · intro hcontra
      exact CellRead.noConfusion hcontra
    · rintro ⟨i, s, hi, -, -⟩
      cases hi
  | some i =>
    simp only [Option.map_some']
    cases hr : row[i]? with
    | none =>
      simp only []
      constructor
      · intro hcontra
        exact CellRead.noConfusion hcontra
      · rintro ⟨i2, s2, hi2, hs2, -⟩
        injection hi2 with hi2
        rw [← hi2] at hs2
        rw [hr] at hs2
        cases hs2
    | some s =>
      simp only []
      cases hp : pyInt? s with
      | none =>
        simp only []
        constructor
        · intro hcontra
          exact CellRead.noConfusion hcontra
        · rintro ⟨i2, s2, hi2, hs2, hps2⟩
          injection hi2 with hi2
          rw [← hi2] at hs2
          rw [hr] at hs2
          injection hs2 with hs2
          rw [← hs2] at hps2
          rw [hp] at hps2
          cases hps2
      | some v2 =>
        simp only []
        constructor
        · intro hv
          injection hv with hv
          exact ⟨i, s, rfl, hr, by rw [hp, hv]⟩
        · rintro ⟨i2, s2, hi2, hs2, hps2⟩
          injection hi2 with hi2
          rw [← hi2] at hs2
          rw [hr] at hs2
          injection hs2 with hs2
          rw [← hs2] at hps2
          rw [hp] at hps2
          injection hps2 with hps2
          rw [hps2]

/-- C9 (amended): in `load_csv_data`, a nonblank row whose `Frame`, `X` or `Y`
column is absent from the header or whose cell fails integer parsing is
silently skipped and the load continues; but a row that is shorter than the
header, leaving a required column with the `None` restval (after the earlier
required columns parsed), raises `TypeError` out of the row loop — the outer
handler catches it and the loader returns only the points collected so far,
dropping all remaining rows.  A row whose three cells parse is loaded as a
point whose label defaults to `"Unknown"` only when the label column is absent
from the header; a short row with parseable `Frame`, `X`, `Y` stores the null
label instead. -/
theorem c9_loader_row_tolerance (header row : List String)
    (rest : List (List String)) (pm : Int → List Point)
    (hne : row.isEmpty = false) :
    ((rowStep header row = RowOut.rskip →
        processRows header pm (row :: rest) = processRows header pm rest) ∧
      (rowStep header row = RowOut.rerr →
        processRows header pm (row :: rest) = pm) ∧
      (∀ f p, rowStep header row = RowOut.rok f p →
        processRows header pm (row :: rest)
          = processRows header (pmInsert pm f p) rest)) ∧
    (ColSkips header row "Frame" → rowStep header row = RowOut.rskip) ∧
    (∀ f, ColVal header row "Frame" f → ColSkips header row "X" →
      rowStep header row = RowOut.rskip) ∧
    (∀ f x, ColVal header row "Frame" f → ColVal header row "X" x →
      ColSkips header row "Y" → rowStep header row = RowOut.rskip) ∧
    (ColNull header row "Frame" → rowStep header row = RowOut.rerr) ∧
    (∀ f, ColVal header row "Frame" f → ColNull header row "X" →
      rowStep header row = RowOut.rerr) ∧
    (∀ f x, ColVal header row "Frame" f → ColVal header row "X" x →
      ColNull header row "Y" → rowStep header row = RowOut.rerr) ∧
    (∀ f x y, ColVal header row "Frame" f → ColVal header row "X" x →
      ColVal header row "Y" y →
      ∃ p, rowStep header row = RowOut.rok f p ∧ p.x = x ∧ p.y = y ∧
        (colIdx header "Object Name" = none → p.name = some "Unknown") ∧
        (∀ i, colIdx header "Object Name" = some i → p.name = row[i]?)) := by
  refine ⟨⟨?_, ?_, ?_⟩, ?_, ?_, ?_, ?_, ?_, ?_, ?_⟩
  · intro hs
    rw [processRows.eq_2, hne]
    simp only [Bool.false_eq_true, if_false, hs]
  · intro hs
    rw [processRows.eq_2, hne]
    simp only [Bool.false_eq_true, if_false, hs]
  · intro f p hs
    rw [processRows.eq_2, hne]
    simp only [Bool.false_eq_true, if_false, hs]
  · intro hF
    unfold rowStep
    rw [(readIntCell_skip_iff header row "Frame").2 hF]
  · intro f hF hX
    unfold rowStep
    rw [(readIntCell_ok_iff header row "Frame" f).2 hF,
      (readIntCell_skip_iff header row "X").2 hX]
  · intro f x hF hX hY
    unfold rowStep
    rw [(readIntCell_ok_iff header row "Frame" f).2 hF,
      (readIntCell_ok_iff header row "X" x).2 hX,
      (readIntCell_skip_iff header row "Y").2 hY]
  · intro hF
    unfold rowStep
    rw [(readIntCell_err_iff header row "Frame").2 hF]
  · intro f hF hX
    unfold rowStep
    rw [(readIntCell_ok_iff header row "Frame" f).2 hF,
      (readIntCell_err_iff header row "X").2 hX]
  · intro f x hF hX hY
    unfold rowStep
    rw [(readIntCell_ok_iff header row "Frame" f).2 hF,
      (readIntCell_ok_iff header row "X" x).2 hX,
      (readIntCell_err_iff header row "Y").2 hY]
  · intro f x y hF hX hY
    refine ⟨⟨rowLabel header row, x, y⟩, ?_, rfl, rfl, ?_, ?_⟩
    · unfold rowStep
      rw [(readIntCell_ok_iff header row "Frame" f).2 hF,
        (readIntCell_ok_iff header row "X" x).2 hX,
        (readIntCell_ok_iff header row "Y" y).2 hY]
    · intro hnone
      show rowLabel header row = some "Unknown"
      unfold rowLabel dictGet
      rw [hnone]
      rfl
    · intro i hi
      show rowLabel header row = row[i]?
      unfold rowLabel dictGet
      rw [hi]
      rfl

/-- The header of the C9 counterexample file: the three required columns. -/
def c9header : List String := ["Frame", "X", "Y"]

/-- The rows of the C9 counterexample file: a short first row (no value for
`Y`) followed by a fully well-formed row. -/
def c9rows : List (List String) := [["1", "2"], ["3", "4", "5"]]

/-- C9 counterexample: on a file whose first row is one cell short, the claim
says that row is skipped and the well-formed second row is loaded; the code
instead raises `TypeError` on `int(None)` at the short row, the outer handler
stops the load, and frame 3 ends up with no points — while the second row alone
does load as a point labelled `"Unknown"`. -/
theorem c9_counterexample :
    load_csv_data true true c9header c9rows 3 = [] ∧
    load_csv_data true true c9header [["3", "4", "5"]] 3
      = [{ name := some "Unknown", x := 4, y := 5 }] := by
  constructor
  · decide
  · decide

/-- The prefix of the C3 counterexample. -/
def c3pfx : List Char := ("output" : String).data

/-- The directory entry of the C3 counterexample: it starts with the prefix
and merely embeds `output_3_clean.mp4` in its interior, so it does not have
the exact form `<prefix>_<N>_clean.<ext>` for any `N`. -/
def c3file : List Char := ("output_old_output_3_clean.mp4" : String).data

/-- C3 counterexample: the claim says only filenames of the exact form
`<prefix>_<N>_clean.<ext>` contribute, so this directory should yield index 1;
the unanchored `re.search` finds the embedded `output_3_clean.mp4` and the
code returns 4. -/
theorem c3_counterexample :
    get_next_video_index c3pfx [c3file] = 4 ∧
    ¬∃ (N : Nat) (ext : List Char),
      c3file = c3pfx ++ '_' :: (toDecimal N ++ (("_clean." : String).data ++ ext)) := by
  constructor
  · decide
  · rintro ⟨N, ext, heq⟩
    have hsplit : c3file
        = c3pfx ++ '_' :: ("old_output_3_clean.mp4" : String).data := by decide
    rw [hsplit] at heq
    have heq2 := List.append_cancel_left heq
    injection heq2 with _ heq3
    obtain ⟨c, cs, hcd⟩ := List.exists_cons_of_ne_nil (toDecimal_ne_nil N)
    have hdig : c.isDigit = true :=
      toDecimal_all_digits N c (by rw [hcd]; exact List.mem_cons_self c cs)
    rw [hcd, List.cons_append] at heq3
    injection heq3 with h3 _
    rw [← h3] at hdig
    exact absurd hdig (by decide)

/-- C3 (amended): `get_next_video_index` returns one plus the maximum (default
zero) of the contributions of the files that start with the prefix and contain
`_clean.mp4`; such a file contributes the value extracted by the unanchored
regex search, which succeeds exactly when `<prefix>_<digits>_clean.mp4` occurs
as a substring anywhere in the name and then extracts the digits of the
leftmost occurrence; in particular a file literally named
`<prefix>_<N>_clean.mp4` contributes `N`, but exact form is not required. -/
theorem c3_next_index_amended (outputPfx : List Char)
    (folderFiles : List (List Char)) :
    get_next_video_index outputPfx folderFiles
      = ((folderFiles.filter
            (fun f => isPre outputPfx f && containsSub cleanTag f)).filterMap
          (fun f => searchIdx outputPfx f)).foldl max 0 + 1 ∧
    (∀ f v, searchIdx outputPfx f = some v ↔
      ∃ p, MatchesAt outputPfx f p v ∧
        ∀ q w, MatchesAt outputPfx f q w → p ≤ q) ∧
    (∀ N, searchIdx outputPfx (mkCleanName outputPfx N) = some N) :=
  ⟨rfl, fun f v => searchIdx_some_iff outputPfx f v,
    fun N => searchIdx_mkCleanName outputPfx N⟩

/-! ### A concrete run used by the witnesses -/

/-- Input directory listing of the witness scenario: four frames (one of which
fails to decode) plus a non-image file. -/
def wInput : List Img :=
  [⟨("frame_10.png" : String).data, true⟩,
   ⟨("frame_2.png" : String).data, false⟩,
   ⟨("frame_1.jpg" : String).data, true⟩,
   ⟨("notes.txt" : String).data, true⟩,
   ⟨("frame_3.png" : String).data, true⟩]

/-- Output directory of the witness scenario, already holding index 2. -/
def wFolder : List (List Char) := [("output_2_clean.mp4" : String).data]

/-- Output prefix of the witness scenario. -/
def wPfx : List Char := ("output" : String).data

/-- Annotation CSV header of the witness scenario. -/
def wHeader : List String := ["Frame", "X", "Y", "Object Name"]

/-- Annotation CSV rows of the witness scenario. -/
def wRows : List (List String) := [["1", "5", "6", "ball"], ["3", "7", "8", "cup"]]

/-- Chunk CSV writes succeed in the witness scenario. -/
def wWriteOk : Nat → Bool := fun _ => true

/-- The witness run: chunk size 3 over 4 images. -/
def wRun : Except String (List VideoOut) :=
  split_images_to_videos wInput wFolder wPfx true true wHeader wRows 24 3 none
    wWriteOk

/-- The chunk outputs of the witness run. -/
def wOuts : List VideoOut := outsOf wRun

/-- A placeholder chunk output (never reached in the witness run). -/
def wDefault : VideoOut := ⟨0, [], [], [], [], ⟨[], [], []⟩, none⟩

/-- First chunk output of the witness run. -/
def wOut0 : VideoOut := (outsOf wRun).headD wDefault

/-- Last chunk output of the witness run. -/
def wOut1 : VideoOut := ((outsOf wRun).getLast?).getD wDefault

/-- The filtered, naturally sorted image list of the witness run. -/
def wImages : List Img :=
  natsortImgs (wInput.filter (fun f => hasImageExt f.name))

/-- The third image of the first chunk of the witness run. -/
def wImg3 : Img := ⟨("frame_3.png" : String).data, true⟩

/-- First collected annotation row of the witness run. -/
def wRow0 : CsvRow := ⟨0, some "ball", 5, 6⟩

/-- Second collected annotation row of the witness run (after one skipped
decode). -/
def wRow2 : CsvRow := ⟨2, some "cup", 7, 8⟩

/-- An input whose only (first) image fails to decode. -/
def wBadImg : Img := ⟨("a.png" : String).data, false⟩

theorem c1_chunk_partition_witness :
    wOuts.length = (4 + 3 - 1) / 3 ∧
    wOut0.chunk.length = 3 ∧
    wOut1.chunk.length = (if 4 % 3 = 0 then 3 else 4 % 3) ∧
    (wOuts.map (fun o => o.chunk)).flatten = wImages := by
  have h := c1_chunk_partition wInput wFolder wPfx true true wHeader wRows 24 3
    none wWriteOk wOuts wImages 4 rfl rfl (by decide)
  exact ⟨h.1, h.2.2.2.1 0 wOut0 (by decide) (by decide),
    h.2.2.2.2.1 wOut1 (by decide), h.2.2.2.2.2⟩

theorem c2_no_overwrite_witness :
    wOut0 ∈ wOuts ∧ 2 < wOut0.vidIdx ∧
    wOut0.cleanPath ≠ mkCleanName wPfx 2 := by
  have h := c2_no_overwrite wInput wFolder wPfx true true wHeader wRows 24 3
    none wWriteOk wOuts 2 rfl (by decide) wOut0 (by decide)
  exact ⟨by decide, h.1, h.2⟩

theorem c4_equal_frame_counts_witness :
    wOut0.output.cleanFrames.length = wOut0.output.annotatedFrames.length ∧
    wOut0.output.cleanFrames = wOut0.output.annotatedFrames.map Prod.fst ∧
    wOut0.output.cleanFrames.length = wOut0.chunk.countP (fun im => im.ok) :=
  c4_equal_frame_counts wInput wFolder wPfx true true wHeader wRows 24 3 none
    wWriteOk wOuts rfl wOut0 (by decide)

theorem c5_fatal_cases_witness :
    0 < 3 ∧
    ∃ e, split_images_to_videos [wBadImg] [] wPfx true true wHeader wRows 24 3
      none wWriteOk = Except.error e := by
  refine ⟨by decide, ?_⟩
  exact (c5_fatal_cases [wBadImg] [] wPfx true true wHeader wRows 24 3 none
    wWriteOk (by decide)).2 (Or.inr ⟨wBadImg, [], by decide, rfl⟩)

theorem c6_chunk_local_frames_witness :
    wRow0.frame < 3 ∧ wRow0.frame < wOut0.chunk.length ∧
    ∃ img, wOut0.chunk[wRow0.frame]? = some img ∧ img.ok = true ∧
      ∃ p ∈ pointsOf (load_csv_data true true wHeader wRows) img.name,
        wRow0 = { frame := wRow0.frame, objName := p.name, x := p.x, y := p.y } :=
  c6_chunk_local_frames wInput wFolder wPfx true true wHeader wRows 24 3 none
    wWriteOk wOuts rfl wOut0 (by decide) wRow0 (by decide)

theorem c7_csv_written_iff_witness :
    wOut0.csvFile = some (csvFields, wOut0.output.rows) ∧
    wOut1.csvFile = none := by
  have h0 := c7_csv_written_iff wInput wFolder wPfx true true wHeader wRows 24 3
    none wWriteOk wOuts (fun i => rfl) rfl wOut0 (by decide)
  have h1 := c7_csv_written_iff wInput wFolder wPfx true true wHeader wRows 24 3
    none wWriteOk wOuts (fun i => rfl) rfl wOut1 (by decide)
  constructor
  · obtain ⟨content, hc⟩ := h0.1.2 (by decide)
    have heq := h0.2 content hc
    rw [heq] at hc
    exact hc
  · cases hcf : wOut1.csvFile with
    | none => rfl
    | some c =>
      have := h1.1.1 ⟨c, hcf⟩
      exact absurd (by decide : wOut1.output.rows = []) this

theorem c8_filename_frame_number_witness :
    ((2, pointsOf (load_csv_data true true wHeader wRows) wImg3.name)
        ∈ wOut0.output.annotatedFrames ∧
      2 ∈ wOut0.output.cleanFrames) ∧
    pointsOf (load_csv_data true true wHeader wRows) wImg3.name
      = load_csv_data true true wHeader wRows
          (Int.ofNat (natOfDigits (("3" : String).data))) := by
  have h := c8_filename_frame_number wInput wFolder wPfx true true wHeader wRows
    24 3 none wWriteOk wOuts rfl wOut0 (by decide) 2 wImg3 (by decide)
    (by decide)
  have hrun : IsLastDigitRun wImg3.name (("3" : String).data) :=
    ⟨by decide, by decide, ("frame_" : String).data, (".png" : String).data,
      by decide, by decide,
      Or.inr ⟨("frame" : String).data, '_', by decide, by decide⟩⟩
  exact ⟨h.1, h.2.1 (("3" : String).data) hrun⟩

theorem c9_loader_row_tolerance_witness :
    (["1", "5", "6", "ball"] : List String).isEmpty = false ∧
    processRows wHeader emptyPm [["1", "5", "6", "ball"]]
      = processRows wHeader (pmInsert emptyPm 1 ⟨some "ball", 5, 6⟩) [] := by
  refine ⟨rfl, ?_⟩
  exact (c9_loader_row_tolerance wHeader ["1", "5", "6", "ball"] [] emptyPm
    rfl).1.2.2 1 ⟨some "ball", 5, 6⟩ (by decide)

theorem c10_skip_offset_witness :
    ∃ img, wOut0.chunk[wRow2.frame]? = some img ∧ img.ok = true ∧
      wRow2.frame
        = (processChunk (load_csv_data true true wHeader wRows)
            (wOut0.chunk.take wRow2.frame)).cleanFrames.length
          + (wOut0.chunk.take wRow2.frame).countP (fun im => !im.ok) :=
  c10_skip_offset wInput wFolder wPfx true true wHeader wRows 24 3 none
    wWriteOk wOuts rfl wOut0 (by decide) wRow2 (by decide)

theorem c3_next_index_amended_witness :
    get_next_video_index wPfx wFolder = 3 ∧
    searchIdx wPfx (mkCleanName wPfx 7) = some 7 := by
  refine ⟨by decide, ?_⟩
  exact (c3_next_index_amended wPfx wFolder).2.2 7
